import Mathlib

/-
Verification development for the curvelops FDCT operator adapter
(`curvelops/curvelops.py`, class `FDCT`).

The native curvelet kernels (`fdct2d_wrapper`, `fdct3d_wrapper`) are compiled
extension modules whose sources are not part of the repository sources here;
following the specification they are treated as an opaque capability: the
construction-time parameter query is an abstract oracle (`Native`), and the
per-slice forward/inverse transforms are abstract functions passed to
`FDCT.matvec` / `FDCT.rmatvec`.  Everything the adapter itself does —
axis normalization, batch-axis iteration, shape bookkeeping, the
`struct`/`vect` codec, and the forward/adjoint loops — is embedded from
the Python source.

Arrays are modelled as row-major flat lists of an arbitrary value type `V`
with a dtype tag (`NDArr`).  numpy basic slicing `x.reshape(dims)[index]`
(integers on batch axes, `:` on transform axes) extracts, in row-major
order, exactly the positions whose coordinates match the index; this is
`gather` over the boolean position mask `sliceMask`, and the write-back
`out[index] = slice` is `scatter` over the same mask.
-/

namespace Curvelops

/-- numpy dtypes, abstracted to the distinctions the code makes
(`np.issubdtype(dtype, np.complexfloating)`). -/
inductive DType
  | complex128
  | complex64
  | float64
  | float32
  | int64
  deriving DecidableEq, Repr, Inhabited

/-- Embeds `np.issubdtype(dtype, np.complexfloating)` on the modelled dtypes. -/
def DType.isComplexFloating : DType → Bool
  | .complex128 => true
  | .complex64 => true
  | _ => false

/-- Python exceptions raised by the adapter, one constructor per raise site:
`axisError` = `np.AxisError` from `normalize_axis_index`;
`scalesError` = the error escaping the default `nbscales` computation
(`min` of an empty sequence / `int(-inf)`);
`arityError` = `NotImplementedError("FDCT is only implemented in 2D or 3D")`;
`dtypeError` = `NotImplementedError("Only complex types supported")`;
`reshapeError` = `ValueError` from `x[k : k + size].reshape(shape)` in
`FDCT.struct` when the slice holds fewer than `size` elements. -/
inductive PyErr
  | axisError
  | scalesError
  | arityError
  | dtypeError
  | reshapeError
  deriving DecidableEq, Repr

/-- One component of a numpy basic index: a concrete integer for a batch
axis, or `slice(None)` (the colon) for a transform axis. -/
inductive Idx
  | all
  | coord (k : Nat)
  deriving DecidableEq, Repr

/-- Whether coordinate `c` on one axis is selected by the index component. -/
def idxMatches : Idx → Nat → Bool
  | .all, _ => true
  | .coord k, c => k == c

/-- Row-major boolean mask over the `dims.prod` flat positions of an array of
shape `dims`, true at positions selected by `x.reshape(dims)[pattern]`.
A pattern shorter than `dims` selects the trailing axes whole. -/
def sliceMask : List Nat → List Idx → List Bool
  | [], _ => [true]
  | d :: ds, [] => List.replicate ((d :: ds).prod) true
  | d :: ds, q :: ps =>
    ((List.range d).map (fun c =>
      if idxMatches q c then sliceMask ds ps else List.replicate ds.prod false)).flatten

/-- Elements of `vs` at the mask's true positions, in order: the row-major
content of the numpy basic slice. -/
def gather {V : Type} : List Bool → List V → List V
  | b :: bs, v :: vs => if b then v :: gather bs vs else gather bs vs
  | _, _ => []

/-- Overwrite the mask's true positions of `vs` with the elements of `nvs`
in order, keeping the rest: the numpy write `out[index] = slice`. -/
def scatter {V : Type} : List Bool → List V → List V → List V
  | b :: bs, nvs, v :: vs =>
    if b then
      match nvs with
      | nv :: nvs2 => nv :: scatter bs nvs2 vs
      | [] => v :: scatter bs [] vs
    else v :: scatter bs nvs vs
  | [], _, vs => vs
  | _ :: _, _, [] => []

/-- Number of true entries of a mask. -/
def countTrue (m : List Bool) : Nat := m.countP (fun b => b)

/-- Embeds `itertools.product` over a list of option lists, row-major: the first
list varies slowest, the last fastest. -/
def cartProd {α : Type} : List (List α) → List (List α)
  | [] => [[]]
  | l :: ls => (l.map (fun a => (cartProd ls).map (fun t => a :: t))).flatten

/-- One per-scale/per-wedge coefficient array: its shape tuple and its
row-major data. -/
structure Leaf (V : Type) where
  shape : List Nat
  data : List V
  deriving DecidableEq, Repr

/-- The `FDCTStructLike` type: list of scales, each a list of angular-wedge arrays. -/
abbrev FDCTStructLike (V : Type) := List (List (Leaf V))

/-- A flat array tagged with its numpy dtype. -/
structure NDArr (V : Type) where
  dtype : DType
  data : List V
  deriving DecidableEq, Repr

/-- Embeds `numpy.core.multiarray.normalize_axis_index`: wraps a single negative
index by adding `ndim`, raises `np.AxisError` outside `[-ndim, ndim)`. -/
def normalize_axis_index (d : Int) (ndim : Nat) : Except PyErr Nat :=
  if -(ndim : Int) ≤ d ∧ d < (ndim : Int) then
    .ok (if d < 0 then (d + ndim).toNat else d.toNat)
  else .error .axisError

/-- Embeds `tuple(normalize_axis_index(d, ndim) for d in axes)`: the generator
raises at the first offending element (explicit error plumbing stands for
Python exception propagation). -/
def normAxes (axes : List Int) (ndim : Nat) : Except PyErr (List Nat) :=
  match axes with
  | [] => .ok []
  | d :: rest =>
    match normalize_axis_index d ndim with
    | .ok a =>
      match normAxes rest ndim with
      | .ok as => .ok (a :: as)
      | .error e => .error e
    | .error e => .error e

/-- Embeds `self._output_len = sum(np.prod(j) for i in self.shapes for j in i)`. -/
def outputLenOf (shapes : List (List (List Nat))) : Nat :=
  (shapes.flatten.map List.prod).sum

/-- The operator state assembled by `FDCT.__init__` (all fields immutable
after construction).  `dimsd` is the `dimsd=(*iterable_dims, self._output_len)`
passed to the pylops base class. -/
structure FDCTOp where
  inpdims : List Nat
  axes : List Nat
  nbscales : Int
  nbangles_coarse : Nat
  allcurvelets : Bool
  dtype : DType
  input_shape : List Nat
  ndim_iterable : Nat
  iterator : List (List Idx)
  shapes : List (List (List Nat))
  output_len : Nat
  dimsd : List Nat
  deriving Repr, Inhabited

/-- Total output size (rows) of the operator, as pylops derives it from
`dimsd`. -/
def FDCTOp.rows (op : FDCTOp) : Nat := op.dimsd.prod

/-- Total input size (cols) of the operator, as pylops derives it from
`dims`. -/
def FDCTOp.cols (op : FDCTOp) : Nat := op.inpdims.prod

/-- Modelled from the spec: the native parameter query
(`fdct2d_param_wrap` / `fdct3d_param_wrap`), whose compiled source is not in
the repository sources.  Per the spec it is an opaque construction-time
capability returning per-scale, per-wedge extents along each transform axis;
`param2 n1 n2 ...` stands for the reordered pair `(nys, nxs)` and
`param3 n1 n2 n3 ...` for the triple `(nzs, nys, nxs)` built by
`FDCT.__init__` from the wrapper's return values. -/
structure Native where
  param2 : Nat → Nat → Int → Nat → Bool → List (List (List Nat))
  param3 : Nat → Nat → Nat → Int → Nat → Bool → List (List (List Nat))

/-- Default `nbscales = int(np.ceil(np.log2(min(input_shape)) - 3))` when the
caller passes none.  For `m ≥ 1`, `ceil(log2 m)` is `Nat.clog 2 m`, and `ceil`
commutes with subtracting the integer 3; an empty `input_shape` makes `min`
raise and a zero extent makes `int(-inf)` raise. -/
def defaultNbscales (nbscales : Option Int) (input_shape : List Nat) : Except PyErr Int :=
  match nbscales with
  | some n => .ok n
  | none =>
    match input_shape.min? with
    | none => .error .scalesError
    | some m =>
      if m = 0 then .error .scalesError
      else .ok ((Nat.clog 2 m : Int) - 3)

/-- The 2D/3D dispatch of `FDCT.__init__`: query the native parameter
capability for the per-scale per-wedge extents (`sizes`), raising
`NotImplementedError` for any other arity. -/
def querySizes (nat : Native) (axesN : List Nat) (input_shape : List Nat) (nbsc : Int)
    (nbangles_coarse : Nat) (allcurvelets : Bool) :
    Except PyErr (List (List (List Nat))) :=
  if axesN.length = 2 then
    .ok (nat.param2 (input_shape.getD 0 0) (input_shape.getD 1 0)
      nbsc nbangles_coarse allcurvelets)
  else if axesN.length = 3 then
    .ok (nat.param3 (input_shape.getD 0 0) (input_shape.getD 1 0)
      (input_shape.getD 2 0) nbsc nbangles_coarse allcurvelets)
  else .error .arityError

/-- Embeds `FDCT.__init__`.  Steps in source order: normalize `axes`; build
`_input_shape`; default `nbscales`; dispatch on `len(axes)` to the native
parameter query, else `NotImplementedError`; reject non-complex dtypes;
build the batch iterator (`iterable_axes = [i not in axes for i in
range(ndim)]` inlined into the per-axis option lists of
`itertools.product`), the shape table and `_output_len`. -/
def FDCT.mk (nat : Native) (dims : List Nat) (axes : List Int) (nbscales : Option Int)
    (nbangles_coarse : Nat) (allcurvelets : Bool) (dtype : DType) :
    Except PyErr FDCTOp :=
  let ndim := dims.length
  match normAxes axes ndim with
  | .error e => .error e
  | .ok axesN =>
    let input_shape := axesN.map (fun d => dims.getD d 0)
    match defaultNbscales nbscales input_shape with
    | .error e => .error e
    | .ok nbsc =>
      match querySizes nat axesN input_shape nbsc nbangles_coarse allcurvelets with
      | .error e => .error e
      | .ok sizes =>
        if dtype.isComplexFloating then
          let iterable_dims :=
            gather ((List.range ndim).map (fun i => decide (¬i ∈ axesN))) dims
          let iterator := cartProd ((List.range ndim).map (fun ax =>
            if ax ∈ axesN then [Idx.all]
            else (List.range (dims.getD ax 0)).map Idx.coord))
          let nxs := sizes.getLastD []
          let shapes := (List.range nxs.length).map (fun i =>
            (List.range (nxs.getD i []).length).map (fun j =>
              sizes.map (fun s => (s.getD i []).getD j 0)))
          Except.ok {
            inpdims := dims
            axes := axesN
            nbscales := nbsc
            nbangles_coarse := nbangles_coarse
            allcurvelets := allcurvelets
            dtype := dtype
            input_shape := input_shape
            ndim_iterable := iterable_dims.prod
            iterator := iterator
            shapes := shapes
            output_len := outputLenOf shapes
            dimsd := iterable_dims ++ [outputLenOf shapes] }
        else Except.error PyErr.dtypeError

/-- Embeds `FDCT.vect`: `np.concatenate([coef.ravel() for angle in x for coef in angle])`. -/
def FDCT.vect {V : Type} (s : FDCTStructLike V) : List V :=
  (s.map (fun angle => (angle.map Leaf.data).flatten)).flatten

/-- Inner loop of `FDCT.struct` over the wedges of one scale: each step is
`x[k : k + size].reshape(shape)` with the cursor `k` advancing by `size`;
consuming the front of the remaining vector models the advancing cursor.
numpy slicing clamps, so `reshape` raises `ValueError` exactly when fewer
than `size` elements remain. -/
def structLeaves {V : Type} : List (List Nat) → List V → Except PyErr (List (Leaf V) × List V)
  | [], x => .ok ([], x)
  | sh :: rest, x =>
    if sh.prod ≤ x.length then
      match structLeaves rest (x.drop sh.prod) with
      | .ok (ls, x2) => .ok (⟨sh, x.take sh.prod⟩ :: ls, x2)
      | .error e => .error e
    else .error .reshapeError

/-- Outer loop of `FDCT.struct` over scales. -/
def structScales {V : Type} : List (List (List Nat)) → List V → Except PyErr (List (List (Leaf V)) × List V)
  | [], x => .ok ([], x)
  | sc :: rest, x =>
    match structLeaves sc x with
    | .ok (ls, x1) =>
      match structScales rest x1 with
      | .ok (ss, x2) => .ok (ls :: ss, x2)
      | .error e => .error e
    | .error e => .error e

/-- Embeds `FDCT.struct`: walk `self.shapes` scale-major, wedge-minor, slicing
consecutive segments off `x`; whatever remains after the walk is ignored. -/
def FDCT.struct {V : Type} (op : FDCTOp) (x : List V) : Except PyErr (FDCTStructLike V) :=
  (structScales op.shapes x).map (fun p => p.1)

/-- Column `i` of a flat vector viewed as a C-order `(L, n)` matrix:
`y.reshape(L, n)[:, i]`. -/
def outCol {V : Type} [Zero V] (y : List V) (L n i : Nat) : List V :=
  (List.range L).map (fun k => y.getD (k * n + i) 0)

/-- Embeds `FDCT._matvec`: per batch index, slice the input, apply the native
forward transform, flatten with `vect` into column `i` of the
`(_output_len, _ndim_iterable)` accumulator `fwd_out`; return
`fwd_out.ravel()` (C order: flat position `m` holds entry
`(m / n, m % n)` of the accumulator).  The output buffer is allocated by
`np.zeros(..., dtype=self.dtype)`, so the result carries the operator
dtype whatever `x.dtype` was. -/
def FDCT.matvec {V : Type} [Zero V] (op : FDCTOp)
    (fdct : List V → FDCTStructLike V) (x : NDArr V) : NDArr V :=
  let colsList := op.iterator.map (fun pat =>
    FDCT.vect (fdct (gather (sliceMask op.inpdims pat) x.data)))
  { dtype := op.dtype
    data := (List.range (op.output_len * op.ndim_iterable)).map
      (fun m => (colsList.getD (m % op.ndim_iterable) []).getD (m / op.ndim_iterable) 0) }

/-- The reconstructed slice for batch position `i` in `FDCT._rmatvec`:
`self.ifdct(*input_shape, ..., self.struct(y_shaped[:, i]))`.  The error
branch is unreachable: a column of `y_shaped` has exactly `_output_len`
elements, on which `struct` always succeeds. -/
def rSlice {V : Type} [Zero V] (op : FDCTOp) (ifdct : FDCTStructLike V → List V)
    (y : List V) (i : Nat) : List V :=
  match FDCT.struct op (outCol y op.output_len op.ndim_iterable i) with
  | .ok s => ifdct s
  | .error _ => []

/-- The `for i, index in enumerate(self._iterator)` loop of `FDCT._rmatvec`,
writing each reconstructed slice into `inv_out[index]`. -/
def rmatvecLoop {V : Type} [Zero V] (op : FDCTOp) (ifdct : FDCTStructLike V → List V)
    (y : List V) : List (List Idx) → Nat → List V → List V
  | [], _, acc => acc
  | pat :: rest, i, acc =>
    rmatvecLoop op ifdct y rest (i + 1)
      (scatter (sliceMask op.inpdims pat) (rSlice op ifdct y i) acc)

/-- Embeds `FDCT._rmatvec`: reshape `y` to `(_output_len, _ndim_iterable)`, run the
per-slice inverse loop into `inv_out = np.zeros(self.inpdims, dtype=self.dtype)`,
return `inv_out.ravel()`. -/
def FDCT.rmatvec {V : Type} [Zero V] (op : FDCTOp)
    (ifdct : FDCTStructLike V → List V) (y : NDArr V) : NDArr V :=
  { dtype := op.dtype
    data := rmatvecLoop op ifdct y.data op.iterator 0 (List.replicate op.inpdims.prod 0) }

/-- Embeds `FDCT.inverse`: `return self._rmatvec(x)`. -/
def FDCT.inverse {V : Type} [Zero V] (op : FDCTOp)
    (ifdct : FDCTStructLike V → List V) (y : NDArr V) : NDArr V :=
  FDCT.rmatvec op ifdct y

/-- The native contract for a coefficient structure produced by the forward
transform: leaf shapes follow the operator's shape table and every leaf
holds exactly its shape's worth of data. -/
def WellFormedStruct {V : Type} (shapes : List (List (List Nat))) (s : FDCTStructLike V) : Prop :=
  s.map (fun angle => angle.map Leaf.shape) = shapes ∧
    ∀ leaf ∈ s.flatten, leaf.data.length = leaf.shape.prod

/-- Modelled from the spec: the forward-output layout the spec claims —
"the accumulator flattened in slice-major then coefficient-minor order
(i.e., flatten such that coefficient index varies fastest)": per-slice
coefficient vectors concatenated one batch slice after another. -/
def claimedForwardFlatten {V : Type} (op : FDCTOp)
    (fdct : List V → FDCTStructLike V) (x : List V) : List V :=
  (op.iterator.map (fun pat =>
    FDCT.vect (fdct (gather (sliceMask op.inpdims pat) x)))).flatten

/-- Modelled from the spec: `batchAxes` = all axes not in `transformAxes`
in ascending order, `batchShape` = sizes of `inputShape` at `batchAxes`
(counter `s` is the current axis index). -/
def specBatchShape (axesN : List Nat) : List Nat → Nat → List Nat
  | [], _ => []
  | d :: ds, s =>
    if s ∈ axesN then specBatchShape axesN ds (s + 1)
    else d :: specBatchShape axesN ds (s + 1)

/-- Modelled from the spec: per-axis option lists for the canonical batch
enumeration — a concrete integer for every batch axis, the "select all"
wildcard for every transform axis. -/
def specAxisSpecs (axesN : List Nat) : List Nat → Nat → List (List Idx)
  | [], _ => []
  | d :: ds, s =>
    (if s ∈ axesN then [Idx.all] else (List.range d).map Idx.coord) ::
      specAxisSpecs axesN ds (s + 1)

/-- Modelled from the spec: the canonical batch-index enumeration — the
row-major (last batch axis fastest) Cartesian product of the per-axis
specifiers. -/
def specEnum (dims : List Nat) (axesN : List Nat) : List (List Idx) :=
  cartProd (specAxisSpecs axesN dims 0)

/-- Sizes of `dims` at the transform axes (those in `axesN`), ascending:
the complement of `specBatchShape`. -/
def tShapeFrom (axesN : List Nat) : List Nat → Nat → List Nat
  | [], _ => []
  | d :: ds, s =>
    if s ∈ axesN then d :: tShapeFrom axesN ds (s + 1)
    else tShapeFrom axesN ds (s + 1)

/-- A concrete native oracle for concrete evaluations: one scale with one
wedge of shape `(2, 2)`; `sizes = (nys, nxs) = ([[2]], [[2]])`. -/
def natSample : Native :=
  { param2 := fun _ _ _ _ _ => [[[2]], [[2]]]
    param3 := fun _ _ _ _ _ _ => [] }

/-- A concrete forward transform conforming to `natSample`'s shape table:
one `(2, 2)` wedge holding the slice data (padded/truncated to 4 entries). -/
def fdctSample (xs : List Int) : FDCTStructLike Int :=
  [[⟨[2, 2], xs.take 4 ++ List.replicate (4 - xs.length) 0⟩]]

/-- The matching inverse transform: read the single wedge back (padded or
truncated to the 4 entries of the `(2, 2)` slice). -/
def ifdctSample (s : FDCTStructLike Int) : List Int :=
  let l := ((s.getD 0 []).getD 0 ⟨[], []⟩).data
  l.take 4 ++ List.replicate (4 - l.length) 0

/-- A concrete valid operator: input shape `(2, 2, 2)`, transform axes
`(1, 2)`, so one batch axis of size 2 and per-slice output length 4. -/
def opSample : FDCTOp :=
  (FDCT.mk natSample [2, 2, 2] [1, 2] (some 1) 8 true .complex128).toOption.getD default

/-- A concrete valid operator on input shape `(4, 8, 8)` with transform axes
`(1, 2)` (the batching scenario of the spec). -/
def opSample488 : FDCTOp :=
  (FDCT.mk natSample [4, 8, 8] [1, 2] (some 2) 8 true .complex128).toOption.getD default

/-! ### List toolkit: gather / scatter / uniform blocks -/

theorem countTrue_cons (b : Bool) (bs : List Bool) :
    countTrue (b :: bs) = (if b then 1 else 0) + countTrue bs := by
  simp only [countTrue, List.countP_cons]
  cases b <;> simp [Nat.add_comm]

theorem countTrue_replicate_false (n : Nat) : countTrue (List.replicate n false) = 0 := by
  simp [countTrue, List.countP_replicate]

theorem gather_nil_left {V : Type} (x : List V) : gather [] x = [] := by
  cases x <;> rfl

theorem gather_length {V : Type} (m : List Bool) :
    ∀ (x : List V), m.length = x.length → (gather m x).length = countTrue m := by
  induction m with
  | nil => intro x h; rw [gather_nil_left]; rfl
  | cons b bs ih =>
    intro x h
    cases x with
    | nil => simp at h
    | cons v vs =>
      simp only [List.length_cons] at h
      have h2 : bs.length = vs.length := by omega
      simp only [gather, countTrue_cons]
      cases b with
      | false => simpa using ih vs h2
      | true => simp [ih vs h2, Nat.add_comm]

theorem scatter_length {V : Type} (m : List Bool) :
    ∀ (nv v : List V), (scatter m nv v).length = v.length := by
  induction m with
  | nil => intro nv v; cases v <;> rfl
  | cons b bs ih =>
    intro nv v
    cases v with
    | nil => rfl
    | cons w ws =>
      cases b with
      | false => simp [scatter, ih]
      | true =>
        cases nv with
        | nil => simp [scatter, ih]
        | cons n ns => simp [scatter, ih]

theorem scatter_gather_getD {V : Type} [Zero V] (m : List Bool) :
    ∀ (x v : List V) (p : Nat), m.length = x.length → v.length = x.length →
    (scatter m (gather m x) v).getD p 0 =
      if m.getD p false then x.getD p 0 else v.getD p 0 := by
  induction m with
  | nil =>
    intro x v p h1 h2
    cases x with
    | cons _ _ => simp at h1
    | nil =>
      cases v with
      | cons _ _ => simp at h2
      | nil => simp [gather, scatter]
  | cons b bs ih =>
    intro x v p h1 h2
    cases x with
    | nil => simp at h1
    | cons y ys =>
      cases v with
      | nil => simp at h2
      | cons w ws =>
        simp only [List.length_cons] at h1 h2
        have h1' : bs.length = ys.length := by omega
        have h2' : ws.length = ys.length := by omega
        cases b with
        | true =>
          simp only [gather, if_pos, scatter]
          cases p with
          | zero => simp
          | succ p' => simpa using ih ys ws p' h1' h2'
        | false =>
          simp only [gather, scatter, if_neg]
          cases p with
          | zero => simp
          | succ p' => simpa using ih ys ws p' h1' h2'

theorem gather_scatter_same {V : Type} (m : List Bool) :
    ∀ (nv v : List V), m.length = v.length → countTrue m = nv.length →
    gather m (scatter m nv v) = nv := by
  induction m with
  | nil =>
    intro nv v h1 h2
    have : nv = [] := by
      cases nv with
      | nil => rfl
      | cons _ _ => simp [countTrue] at h2
    subst this
    rw [gather_nil_left]
  | cons b bs ih =>
    intro nv v h1 h2
    cases v with
    | nil => simp at h1
    | cons w ws =>
      simp only [List.length_cons] at h1
      have h1' : bs.length = ws.length := by omega
      rw [countTrue_cons] at h2
      cases b with
      | true =>
        cases nv with
        | nil => simp at h2
        | cons n ns =>
          simp only [if_true, List.length_cons] at h2
          have h2' : countTrue bs = ns.length := by omega
          simp [scatter, gather, ih ns ws h1' h2']
      | false =>
        simp only [Bool.false_eq_true, if_false, Nat.zero_add] at h2
        simp [scatter, gather, ih nv ws h1' h2]

theorem gather_scatter_disjoint {V : Type} (m : List Bool) :
    ∀ (m2 : List Bool) (nv v : List V),
    (∀ p, ¬(m.getD p false = true ∧ m2.getD p false = true)) →
    gather m (scatter m2 nv v) = gather m v := by
  induction m with
  | nil => intro m2 nv v _; rw [gather_nil_left, gather_nil_left]
  | cons b bs ih =>
    intro m2 nv v hd
    cases m2 with
    | nil => cases v <;> rfl
    | cons b2 bs2 =>
      cases v with
      | nil =>
        cases nv <;> simp [scatter]
      | cons w ws =>
        have hd' : ∀ p, ¬(bs.getD p false = true ∧ bs2.getD p false = true) :=
          fun p => hd (p + 1)
        have h0 := hd 0
        cases b2 with
        | true =>
          have hb : b = false := by
            cases b
            · rfl
            · exact absurd ⟨rfl, rfl⟩ h0
          subst hb
          cases nv with
          | nil => simp [scatter, gather, ih bs2 [] ws hd']
          | cons n ns => simp [scatter, gather, ih bs2 ns ws hd']
        | false =>
          cases b with
          | true => simp [scatter, gather, ih bs2 nv ws hd']
          | false => simp [scatter, gather, ih bs2 nv ws hd']

theorem getD_range_map_lt {α : Type} (f : Nat → α) {N m : Nat} (d : α) (h : m < N) :
    ((List.range N).map f).getD m d = f m := by
  have hlen : m < ((List.range N).map f).length := by simpa using h
  rw [List.getD_eq_getElem _ _ hlen, List.getElem_map, List.getElem_range]

theorem getD_range_map_ge {α : Type} (f : Nat → α) {N m : Nat} (d : α) (h : N ≤ m) :
    ((List.range N).map f).getD m d = d := by
  apply List.getD_eq_default
  simpa using h

theorem flatten_length_uniform {α : Type} {ls : List (List α)} {L : Nat}
    (hL : ∀ l ∈ ls, l.length = L) : ls.flatten.length = ls.length * L := by
  rw [List.length_flatten, List.map_congr_left hL, List.map_const', List.sum_replicate,
    smul_eq_mul]

theorem flatten_getD_uniform {α : Type} (d : α) {ls : List (List α)} {L : Nat}
    (hL : ∀ l ∈ ls, l.length = L) :
    ∀ (c r : Nat), c < ls.length → r < L →
    ls.flatten.getD (c * L + r) d = (ls.getD c []).getD r d := by
  induction ls with
  | nil => intro c r hc _; simp at hc
  | cons l ls ih =>
    intro c r hc hr
    have hl : l.length = L := hL l (by simp)
    cases c with
    | zero =>
      simp only [List.flatten_cons, Nat.zero_mul, Nat.zero_add]
      rw [List.getD_append _ _ _ _ (by omega)]
      rfl
    | succ c' =>
      have harith : (c' + 1) * L + r = l.length + (c' * L + r) := by
        rw [hl]; ring
      simp only [List.flatten_cons, harith]
      rw [List.getD_append_right _ _ _ _ (by omega)]
      have : l.length + (c' * L + r) - l.length = c' * L + r := by omega
      rw [this]
      simp only [List.length_cons] at hc
      exact ih (fun x hx => hL x (by simp [hx])) c' r (by omega) hr

theorem flatten_getD_decomp {α : Type} (d : α) {ls : List (List α)} {L p : Nat}
    (hL : ∀ l ∈ ls, l.length = L) (hp : p < ls.length * L) :
    ls.flatten.getD p d = (ls.getD (p / L) []).getD (p % L) d := by
  have hLpos : 0 < L := by
    rcases Nat.eq_zero_or_pos L with h | h
    · subst h; simp at hp
    · exact h
  have hc : p / L < ls.length := (Nat.div_lt_iff_lt_mul hLpos).2 hp
  have hr : p % L < L := Nat.mod_lt _ hLpos
  have := flatten_getD_uniform d hL (p / L) (p % L) hc hr
  rwa [Nat.mul_comm (p / L) L, Nat.div_add_mod] at this

/-! ### Slice masks and the Cartesian product of index options -/

theorem sliceMask_length : ∀ (dims : List Nat) (pat : List Idx),
    (sliceMask dims pat).length = dims.prod := by
  intro dims
  induction dims with
  | nil => intro pat; cases pat <;> rfl
  | cons d ds ih =>
    intro pat
    cases pat with
    | nil => simp [sliceMask]
    | cons q ps =>
      simp only [sliceMask]
      rw [flatten_length_uniform (L := ds.prod)]
      · simp [List.prod_cons]
      · intro l hl
        rcases List.mem_map.1 hl with ⟨c, _, rfl⟩
        by_cases hm : idxMatches q c
        · simp [hm, ih]
        · simp [hm]

theorem sliceMask_blocks_length {d : Nat} (ds : List Nat) (q : Idx) (ps : List Idx) :
    ∀ l ∈ (List.range d).map (fun c =>
      if idxMatches q c then sliceMask ds ps else List.replicate ds.prod false),
      l.length = ds.prod := by
  intro l hl
  rcases List.mem_map.1 hl with ⟨c, _, rfl⟩
  by_cases hm : idxMatches q c
  · simp [hm, sliceMask_length]
  · simp [hm]

theorem sliceMask_getD_true {d : Nat} {ds : List Nat} {q : Idx} {ps : List Idx} {p : Nat}
    (h : (sliceMask (d :: ds) (q :: ps)).getD p false = true) :
    0 < ds.prod ∧ p < d * ds.prod ∧ idxMatches q (p / ds.prod) = true ∧
      (sliceMask ds ps).getD (p % ds.prod) false = true := by
  have hlen : (sliceMask (d :: ds) (q :: ps)).length = d * ds.prod := by
    rw [sliceMask_length]; simp [List.prod_cons]
  have hp : p < d * ds.prod := by
    by_contra hge
    rw [List.getD_eq_default _ _ (by omega)] at h
    exact Bool.false_ne_true h
  have hLpos : 0 < ds.prod := by
    rcases Nat.eq_zero_or_pos ds.prod with h0 | h0
    · rw [h0, Nat.mul_zero] at hp; omega
    · exact h0
  have hdec : (sliceMask (d :: ds) (q :: ps)).getD p false =
      (((List.range d).map (fun c => if idxMatches q c then sliceMask ds ps
        else List.replicate ds.prod false)).getD (p / ds.prod) []).getD (p % ds.prod) false := by
    simp only [sliceMask]
    exact flatten_getD_decomp false (sliceMask_blocks_length ds q ps) (by simpa using hp)
  have hc : p / ds.prod < d := (Nat.div_lt_iff_lt_mul hLpos).2 hp
  rw [hdec, getD_range_map_lt _ _ hc] at h
  by_cases hm : idxMatches q (p / ds.prod)
  · rw [if_pos hm] at h
    exact ⟨hLpos, hp, hm, h⟩
  · rw [if_neg hm] at h
    have : (List.replicate ds.prod false).getD (p % ds.prod) false = false := by
      rw [List.getD_eq_getElem _ _ (by simpa using Nat.mod_lt p hLpos)]
      exact List.getElem_replicate _ _
    rw [this] at h
    exact absurd h Bool.false_ne_true

theorem sliceMask_getD_of {d : Nat} {ds : List Nat} {q : Idx} {ps : List Idx} {c r : Nat}
    (hc : c < d) (hm : idxMatches q c = true) (hr : r < ds.prod)
    (h : (sliceMask ds ps).getD r false = true) :
    (sliceMask (d :: ds) (q :: ps)).getD (c * ds.prod + r) false = true := by
  simp only [sliceMask]
  rw [flatten_getD_uniform false (sliceMask_blocks_length ds q ps) c r (by simpa using hc) hr]
  rw [getD_range_map_lt _ _ hc, if_pos hm]
  exact h

theorem mem_cartProd_cons {α : Type} {l : List α} {ls : List (List α)} {t : List α} :
    t ∈ cartProd (l :: ls) ↔ ∃ a ∈ l, ∃ t2 ∈ cartProd ls, t = a :: t2 := by
  simp only [cartProd, List.mem_flatten, List.mem_map]
  constructor
  · rintro ⟨g, ⟨a, ha, rfl⟩, ht⟩
    rcases List.mem_map.1 ht with ⟨t2, ht2, rfl⟩
    exact ⟨a, ha, t2, ht2, rfl⟩
  · rintro ⟨a, ha, t2, ht2, rfl⟩
    exact ⟨(cartProd ls).map (fun t2 => a :: t2), ⟨a, ha, rfl⟩, List.mem_map.2 ⟨t2, ht2, rfl⟩⟩

theorem cartProd_length {α : Type} : ∀ (ls : List (List α)),
    (cartProd ls).length = (ls.map List.length).prod := by
  intro ls
  induction ls with
  | nil => rfl
  | cons l ls ih =>
    simp only [cartProd]
    rw [flatten_length_uniform (L := (cartProd ls).length)]
    · simp [ih]
    · intro g hg
      rcases List.mem_map.1 hg with ⟨a, _, rfl⟩
      simp

theorem cartProd_nodup {α : Type} : ∀ (ls : List (List α)), (∀ l ∈ ls, l.Nodup) →
    (cartProd ls).Nodup := by
  intro ls
  induction ls with
  | nil => intro _; simp [cartProd]
  | cons l ls ih =>
    intro h
    have hl : l.Nodup := h l (by simp)
    have hrest := ih (fun x hx => h x (by simp [hx]))
    simp only [cartProd]
    rw [List.nodup_flatten]
    constructor
    · intro g hg
      rcases List.mem_map.1 hg with ⟨a, _, rfl⟩
      exact hrest.map (fun t1 t2 het => by injection het)
    · rw [List.pairwise_map]
      refine List.Pairwise.imp ?_ hl
      intro a b hab t hta htb
      rcases List.mem_map.1 hta with ⟨t1, _, rfl⟩
      rcases List.mem_map.1 htb with ⟨t2, _, h2⟩
      injection h2 with hh _
      exact hab hh.symm

/-! ### Properties of the batch enumeration -/

theorem specAxisSpecs_nodup (axesN : List Nat) : ∀ (ds : List Nat) (s : Nat),
    ∀ l ∈ specAxisSpecs axesN ds s, l.Nodup := by
  intro ds
  induction ds with
  | nil => intro s l hl; simp [specAxisSpecs] at hl
  | cons d ds ih =>
    intro s l hl
    simp only [specAxisSpecs, List.mem_cons] at hl
    rcases hl with rfl | hl
    · by_cases hs : s ∈ axesN
      · simp [hs]
      · simp only [hs, if_false]
        exact (List.nodup_range d).map (fun a b h => by injection h)
    · exact ih (s + 1) l hl

theorem specEnum_cover (axesN : List Nat) : ∀ (ds : List Nat) (s p : Nat), p < ds.prod →
    ∃ pat ∈ cartProd (specAxisSpecs axesN ds s), (sliceMask ds pat).getD p false = true := by
  intro ds
  induction ds with
  | nil =>
    intro s p hp
    simp only [List.prod_nil] at hp
    have hp0 : p = 0 := by omega
    subst hp0
    exact ⟨[], by simp [specAxisSpecs, cartProd], by simp [sliceMask]⟩
  | cons d ds ih =>
    intro s p hp
    simp only [List.prod_cons] at hp
    have hP : 0 < ds.prod := by
      rcases Nat.eq_zero_or_pos ds.prod with h0 | h0
      · rw [h0, Nat.mul_zero] at hp; omega
      · exact h0
    have hc : p / ds.prod < d := (Nat.div_lt_iff_lt_mul hP).2 hp
    have hr : p % ds.prod < ds.prod := Nat.mod_lt _ hP
    obtain ⟨pat2, hmem2, hmask2⟩ := ih (s + 1) (p % ds.prod) hr
    have hdecomp : p / ds.prod * ds.prod + p % ds.prod = p := by
      rw [Nat.mul_comm]; exact Nat.div_add_mod p ds.prod
    by_cases hs : s ∈ axesN
    · refine ⟨Idx.all :: pat2, ?_, ?_⟩
      · simp only [specEnum, specAxisSpecs]
        exact mem_cartProd_cons.2 ⟨Idx.all, by simp [hs], pat2, hmem2, rfl⟩
      · have hstep := @sliceMask_getD_of d ds Idx.all pat2 (p / ds.prod) (p % ds.prod)
          hc rfl hr hmask2
        rwa [hdecomp] at hstep
    · refine ⟨Idx.coord (p / ds.prod) :: pat2, ?_, ?_⟩
      · simp only [specEnum, specAxisSpecs]
        refine mem_cartProd_cons.2 ⟨Idx.coord (p / ds.prod), ?_, pat2, hmem2, rfl⟩
        simp only [hs, if_false]
        exact List.mem_map.2 ⟨p / ds.prod, List.mem_range.2 hc, rfl⟩
      · have hstep := @sliceMask_getD_of d ds (Idx.coord (p / ds.prod)) pat2 (p / ds.prod)
          (p % ds.prod) hc (by simp [idxMatches]) hr hmask2
        rwa [hdecomp] at hstep

theorem specEnum_disjoint (axesN : List Nat) : ∀ (ds : List Nat) (s : Nat)
    (pat pat2 : List Idx),
    pat ∈ cartProd (specAxisSpecs axesN ds s) → pat2 ∈ cartProd (specAxisSpecs axesN ds s) →
    pat ≠ pat2 → ∀ p, ¬((sliceMask ds pat).getD p false = true ∧
      (sliceMask ds pat2).getD p false = true) := by
  intro ds
  induction ds with
  | nil =>
    intro s pat pat2 h1 h2 hne p
    simp only [specAxisSpecs, cartProd, List.mem_singleton] at h1 h2
    subst h1; subst h2
    exact absurd rfl hne
  | cons d ds ih =>
    intro s pat pat2 h1 h2 hne p
    simp only [specAxisSpecs] at h1 h2
    rcases mem_cartProd_cons.1 h1 with ⟨a, ha, t, ht, rfl⟩
    rcases mem_cartProd_cons.1 h2 with ⟨a2, ha2, t2, ht2, rfl⟩
    rintro ⟨hm1, hm2⟩
    obtain ⟨hP, hp1, hmatch1, hsub1⟩ := sliceMask_getD_true hm1
    obtain ⟨_, _, hmatch2, hsub2⟩ := sliceMask_getD_true hm2
    by_cases hs : s ∈ axesN
    · simp only [hs, if_true, List.mem_singleton] at ha ha2
      subst ha; subst ha2
      have htne : t ≠ t2 := fun h => hne (by rw [h])
      exact ih (s + 1) t t2 ht ht2 htne (p % ds.prod) ⟨hsub1, hsub2⟩
    · simp only [hs, if_false] at ha ha2
      rcases List.mem_map.1 ha with ⟨c1, _, rfl⟩
      rcases List.mem_map.1 ha2 with ⟨c2, _, rfl⟩
      simp only [idxMatches, beq_iff_eq] at hmatch1 hmatch2
      subst hmatch1; subst hmatch2
      by_cases hteq : t = t2
      · subst hteq; exact hne rfl
      · exact ih (s + 1) t t2 ht ht2 hteq (p % ds.prod) ⟨hsub1, hsub2⟩

theorem sum_range_single (k : Nat) : ∀ (d c : Nat),
    ((List.range d).map (fun c2 => if c = c2 then k else 0)).sum = if c < d then k else 0 := by
  intro d
  induction d with
  | zero => intro c; simp
  | succ d ih =>
    intro c
    rw [List.range_succ, List.map_append, List.sum_append, ih c]
    simp only [List.map_cons, List.map_nil, List.sum_cons, List.sum_nil]
    by_cases h1 : c < d
    · have h2 : c ≠ d := by omega
      have h3 : c < d + 1 := by omega
      simp [h1, h2, h3]
    · by_cases h2 : c = d
      · subst h2; simp [h1]
      · have h3 : ¬c < d + 1 := by omega
        simp [h1, h2, h3]

theorem countTrue_sliceMask (axesN : List Nat) : ∀ (ds : List Nat) (s : Nat)
    (pat : List Idx), pat ∈ cartProd (specAxisSpecs axesN ds s) →
    countTrue (sliceMask ds pat) = (tShapeFrom axesN ds s).prod := by
  intro ds
  induction ds with
  | nil =>
    intro s pat h
    simp only [specAxisSpecs, cartProd, List.mem_singleton] at h
    subst h
    rfl
  | cons d ds ih =>
    intro s pat h
    simp only [specAxisSpecs] at h
    rcases mem_cartProd_cons.1 h with ⟨a, ha, t, ht, rfl⟩
    have hcnt : countTrue (sliceMask (d :: ds) (a :: t)) =
        ((List.range d).map (fun c =>
          if idxMatches a c then countTrue (sliceMask ds t) else 0)).sum := by
      simp only [sliceMask, countTrue, List.countP_flatten, List.map_map]
      congr 1
      apply List.map_congr_left
      intro c _
      by_cases hm : idxMatches a c
      · simp [hm, Function.comp]
      · simp [hm, Function.comp, List.countP_replicate]
    rw [hcnt, ih (s + 1) t ht]
    by_cases hs : s ∈ axesN
    · simp only [hs, if_true, List.mem_singleton] at ha
      subst ha
      have : ∀ c ∈ List.range d, (if idxMatches Idx.all c
          then (tShapeFrom axesN ds (s + 1)).prod else 0) = (tShapeFrom axesN ds (s + 1)).prod := by
        intro c _; rfl
      rw [List.map_congr_left this, List.map_const', List.sum_replicate, smul_eq_mul]
      simp [tShapeFrom, hs]
    · simp only [hs, if_false] at ha
      rcases List.mem_map.1 ha with ⟨c1, hc1, rfl⟩
      have hform : ∀ c ∈ List.range d, (if idxMatches (Idx.coord c1) c
          then (tShapeFrom axesN ds (s + 1)).prod else 0) =
          (if c1 = c then (tShapeFrom axesN ds (s + 1)).prod else 0) := by
        intro c _
        simp [idxMatches]
      rw [List.map_congr_left hform, sum_range_single, if_pos (List.mem_range.1 hc1)]
      simp [tShapeFrom, hs]

theorem specEnum_length_aux (axesN : List Nat) : ∀ (ds : List Nat) (s : Nat),
    (cartProd (specAxisSpecs axesN ds s)).length = (specBatchShape axesN ds s).prod := by
  intro ds
  induction ds with
  | nil => intro s; rfl
  | cons d ds ih =>
    intro s
    simp only [specAxisSpecs, cartProd]
    rw [flatten_length_uniform (L := (cartProd (specAxisSpecs axesN ds (s + 1))).length)]
    · by_cases hs : s ∈ axesN
      · simp [hs, specBatchShape, ih]
      · simp [hs, specBatchShape, ih, List.prod_cons]
    · intro g hg
      rcases List.mem_map.1 hg with ⟨a, _, rfl⟩
      simp

/-! ### Bridges: the source-form comprehensions equal the recursive views -/

theorem rangeMap_axisOpts_eq (axesN : List Nat) (dims0 : List Nat) :
    ∀ (ds : List Nat) (s : Nat), dims0.drop s = ds →
    (List.range' s ds.length).map (fun ax => if ax ∈ axesN then [Idx.all]
      else (List.range (dims0.getD ax 0)).map Idx.coord) = specAxisSpecs axesN ds s := by
  intro ds
  induction ds with
  | nil => intro s _; rfl
  | cons d ds ih =>
    intro s h
    have hget : dims0.getD s 0 = d := by
      rw [List.getD_eq_getElem?_getD, ← List.head?_drop, h]
      rfl
    have htail : dims0.drop (s + 1) = ds := by
      rw [← List.tail_drop, h]
      rfl
    simp only [List.length_cons, List.range'_succ, List.map_cons]
    rw [ih (s + 1) htail, hget]
    rfl

theorem gather_bits_eq_specBatchShape (axesN : List Nat) (dims0 : List Nat) :
    ∀ (ds : List Nat) (s : Nat), dims0.drop s = ds →
    gather ((List.range' s ds.length).map (fun i => decide (¬i ∈ axesN))) ds =
      specBatchShape axesN ds s := by
  intro ds
  induction ds with
  | nil => intro s _; rfl
  | cons d ds ih =>
    intro s h
    have htail : dims0.drop (s + 1) = ds := by
      rw [← List.tail_drop, h]
      rfl
    simp only [List.length_cons, List.range'_succ, List.map_cons, gather]
    by_cases hs : s ∈ axesN
    · have hbit : decide (¬s ∈ axesN) = false := by simp [hs]
      simp only [hbit, Bool.false_eq_true, if_false]
      rw [ih (s + 1) htail]
      simp [specBatchShape, hs]
    · have hbit : decide (¬s ∈ axesN) = true := by simp [hs]
      simp only [hbit, if_true]
      rw [ih (s + 1) htail]
      simp [specBatchShape, hs]

theorem tShapeFrom_eq_filter_map (axesN : List Nat) (dims0 : List Nat) :
    ∀ (ds : List Nat) (s : Nat), dims0.drop s = ds →
    tShapeFrom axesN ds s =
      ((List.range' s ds.length).filter (fun a => decide (a ∈ axesN))).map
        (fun a => dims0.getD a 0) := by
  intro ds
  induction ds with
  | nil => intro s _; rfl
  | cons d ds ih =>
    intro s h
    have hget : dims0.getD s 0 = d := by
      rw [List.getD_eq_getElem?_getD, ← List.head?_drop, h]
      rfl
    have htail : dims0.drop (s + 1) = ds := by
      rw [← List.tail_drop, h]
      rfl
    simp only [List.length_cons, List.range'_succ, List.filter_cons]
    by_cases hs : s ∈ axesN
    · have hbit : decide (s ∈ axesN) = true := decide_eq_true hs
      simp only [hbit, if_true, List.map_cons, hget, tShapeFrom, if_pos hs]
      rw [ih (s + 1) htail]
    · have hbit : decide (s ∈ axesN) = false := decide_eq_false hs
      simp only [hbit, Bool.false_eq_true, if_false, tShapeFrom]
      rw [if_neg hs, ih (s + 1) htail]

theorem tShape_prod_eq_input_shape_prod (axesN : List Nat) (dims : List Nat)
    (hnd : axesN.Nodup) (hlt : ∀ a ∈ axesN, a < dims.length) :
    (tShapeFrom axesN dims 0).prod = (axesN.map (fun a => dims.getD a 0)).prod := by
  have hfil := tShapeFrom_eq_filter_map axesN dims dims 0 (List.drop_zero dims)
  rw [← List.range_eq_range'] at hfil
  have hperm : ((List.range dims.length).filter (fun a => decide (a ∈ axesN))).Perm axesN := by
    rw [List.perm_ext_iff_of_nodup ((List.nodup_range _).filter _) hnd]
    intro a
    rw [List.mem_filter, List.mem_range]
    constructor
    · rintro ⟨_, ha⟩
      exact of_decide_eq_true ha
    · intro ha
      exact ⟨hlt a ha, decide_eq_true ha⟩
  rw [hfil]
  exact List.Perm.prod_eq (hperm.map _)

/-! ### The struct/vect codec -/

/-- Concatenated data of the wedge arrays of one scale. -/
def leavesData {V : Type} (ls : List (Leaf V)) : List V :=
  (ls.map Leaf.data).flatten

/-- Concatenated data of all scales: this is exactly `FDCT.vect`. -/
def scalesData {V : Type} (ss : FDCTStructLike V) : List V :=
  (ss.map leavesData).flatten

theorem vect_eq_scalesData {V : Type} (s : FDCTStructLike V) :
    FDCT.vect s = scalesData s := rfl

theorem outputLenOf_eq (shapes : List (List (List Nat))) :
    outputLenOf shapes = (shapes.map (fun sc => (sc.map List.prod).sum)).sum := by
  simp [outputLenOf, List.map_flatten, List.sum_flatten, List.map_map, Function.comp_def]

theorem leavesData_length {V : Type} {ls : List (Leaf V)}
    (h : ∀ leaf ∈ ls, leaf.data.length = leaf.shape.prod) :
    (leavesData ls).length = ((ls.map Leaf.shape).map List.prod).sum := by
  induction ls with
  | nil => rfl
  | cons leaf ls ih =>
    have hstep : leavesData (leaf :: ls) = leaf.data ++ leavesData ls := rfl
    rw [hstep, List.length_append, h leaf (by simp), ih (fun l hl => h l (by simp [hl]))]
    simp

theorem scalesData_length {V : Type} {ss : FDCTStructLike V}
    (h : ∀ leaf ∈ ss.flatten, leaf.data.length = leaf.shape.prod) :
    (scalesData ss).length =
      ((ss.map (fun sc => sc.map Leaf.shape)).map (fun sc => (sc.map List.prod).sum)).sum := by
  induction ss with
  | nil => rfl
  | cons sc ss ih =>
    have h1 : ∀ leaf ∈ sc, leaf.data.length = leaf.shape.prod := by
      intro l hl; exact h l (by simp [hl])
    have h2 : ∀ leaf ∈ ss.flatten, leaf.data.length = leaf.shape.prod := by
      intro l hl; exact h l (by simp [List.mem_flatten] at hl ⊢; tauto)
    have hstep : scalesData (sc :: ss) = leavesData sc ++ scalesData ss := rfl
    rw [hstep, List.length_append, leavesData_length h1, ih h2]
    simp

theorem vect_length_of_wf {V : Type} {shapes : List (List (List Nat))}
    {s : FDCTStructLike V} (h : WellFormedStruct shapes s) :
    (FDCT.vect s).length = outputLenOf shapes := by
  rw [vect_eq_scalesData, scalesData_length h.2, outputLenOf_eq, h.1]

theorem structLeaves_ok_spec {V : Type} : ∀ (shs : List (List Nat)) (x : List V)
    (ls : List (Leaf V)) (rest : List V), structLeaves shs x = .ok (ls, rest) →
    ls.map Leaf.shape = shs ∧ (∀ leaf ∈ ls, leaf.data.length = leaf.shape.prod) ∧
      x = leavesData ls ++ rest := by
  intro shs
  induction shs with
  | nil =>
    intro x ls rest h
    simp only [structLeaves, Except.ok.injEq, Prod.mk.injEq] at h
    obtain ⟨rfl, rfl⟩ := h
    exact ⟨rfl, by simp, rfl⟩
  | cons sh shs ih =>
    intro x ls rest h
    simp only [structLeaves] at h
    split at h
    case isTrue hle =>
      cases hrec : structLeaves shs (x.drop sh.prod) with
      | error e => rw [hrec] at h; exact absurd h (by simp)
      | ok p =>
        obtain ⟨ls2, rest2⟩ := p
        rw [hrec] at h
        simp only [Except.ok.injEq, Prod.mk.injEq] at h
        obtain ⟨hls, hrest⟩ := h
        subst hls
        subst hrest
        obtain ⟨hsh, hlen, hx⟩ := ih (x.drop sh.prod) ls2 rest2 hrec
        refine ⟨by simp [hsh], ?_, ?_⟩
        · intro leaf hleaf
          rcases List.mem_cons.1 hleaf with rfl | hmem
          · simp only []
            rw [List.length_take]
            omega
          · exact hlen leaf hmem
        · conv_lhs => rw [← List.take_append_drop sh.prod x]
          rw [hx]
          simp [leavesData, List.append_assoc]
    case isFalse => exact absurd h (by simp)

theorem structLeaves_ok_of_le {V : Type} : ∀ (shs : List (List Nat)) (x : List V),
    (shs.map List.prod).sum ≤ x.length →
    ∃ ls rest, structLeaves shs x = .ok (ls, rest) := by
  intro shs
  induction shs with
  | nil => intro x _; exact ⟨[], x, rfl⟩
  | cons sh shs ih =>
    intro x hle
    simp only [List.map_cons, List.sum_cons] at hle
    have h1 : sh.prod ≤ x.length := by omega
    have h2 : (shs.map List.prod).sum ≤ (x.drop sh.prod).length := by
      rw [List.length_drop]; omega
    obtain ⟨ls2, rest2, hrec⟩ := ih (x.drop sh.prod) h2
    exact ⟨⟨sh, x.take sh.prod⟩ :: ls2, rest2, by simp [structLeaves, h1, hrec]⟩

theorem structLeaves_error_lt {V : Type} : ∀ (shs : List (List Nat)) (x : List V)
    (e : PyErr), structLeaves shs x = .error e → x.length < (shs.map List.prod).sum := by
  intro shs
  induction shs with
  | nil => intro x e h; exact absurd h (by simp [structLeaves])
  | cons sh shs ih =>
    intro x e h
    simp only [structLeaves] at h
    simp only [List.map_cons, List.sum_cons]
    split at h
    case isTrue hle =>
      cases hrec : structLeaves shs (x.drop sh.prod) with
      | error e2 =>
        have := ih (x.drop sh.prod) e2 hrec
        rw [List.length_drop] at this
        omega
      | ok p =>
        obtain ⟨ls2, rest2⟩ := p
        rw [hrec] at h
        exact absurd h (by simp)
    case isFalse hgt => omega

theorem structLeaves_of_wf {V : Type} : ∀ (ls : List (Leaf V)) (r : List V),
    (∀ leaf ∈ ls, leaf.data.length = leaf.shape.prod) →
    structLeaves (ls.map Leaf.shape) (leavesData ls ++ r) = .ok (ls, r) := by
  intro ls
  induction ls with
  | nil => intro r _; simp [structLeaves, leavesData]
  | cons leaf ls ih =>
    intro r hlen
    have hl : leaf.data.length = leaf.shape.prod := hlen leaf (by simp)
    have hx : leavesData (leaf :: ls) ++ r = leaf.data ++ (leavesData ls ++ r) := by
      simp [leavesData, List.append_assoc]
    simp only [List.map_cons, structLeaves, hx]
    have hle : leaf.shape.prod ≤ (leaf.data ++ (leavesData ls ++ r)).length := by
      rw [List.length_append, hl]; omega
    rw [if_pos hle]
    have htake : (leaf.data ++ (leavesData ls ++ r)).take leaf.shape.prod = leaf.data := by
      rw [← hl]; exact List.take_left _ _
    have hdrop : (leaf.data ++ (leavesData ls ++ r)).drop leaf.shape.prod =
        leavesData ls ++ r := by
      rw [← hl]; exact List.drop_left _ _
    rw [hdrop, ih r (fun l hl2 => hlen l (by simp [hl2])), htake]

theorem structScales_ok_spec {V : Type} : ∀ (shapes : List (List (List Nat))) (x : List V)
    (ss : FDCTStructLike V) (rest : List V), structScales shapes x = .ok (ss, rest) →
    ss.map (fun sc => sc.map Leaf.shape) = shapes ∧
      (∀ leaf ∈ ss.flatten, leaf.data.length = leaf.shape.prod) ∧
      x = scalesData ss ++ rest := by
  intro shapes
  induction shapes with
  | nil =>
    intro x ss rest h
    simp only [structScales, Except.ok.injEq, Prod.mk.injEq] at h
    obtain ⟨rfl, rfl⟩ := h
    exact ⟨rfl, by simp, rfl⟩
  | cons sc shapes ih =>
    intro x ss rest h
    cases hl : structLeaves sc x with
    | error e => simp [structScales, hl] at h
    | ok p =>
      obtain ⟨ls, x1⟩ := p
      cases hr : structScales shapes x1 with
      | error e => simp [structScales, hl, hr] at h
      | ok p2 =>
        obtain ⟨ss2, rest2⟩ := p2
        simp only [structScales, hl, hr, Except.ok.injEq, Prod.mk.injEq] at h
        obtain ⟨h1, h2⟩ := h
        subst h1; subst h2
        obtain ⟨hsh1, hlen1, hx1⟩ := structLeaves_ok_spec sc x ls x1 hl
        obtain ⟨hsh2, hlen2, hx2⟩ := ih x1 ss2 rest2 hr
        refine ⟨by simp [hsh1, hsh2], ?_, ?_⟩
        · intro leaf hleaf
          simp only [List.flatten_cons, List.mem_append] at hleaf
          rcases hleaf with hone | htwo
          · exact hlen1 leaf hone
          · exact hlen2 leaf (by simpa using htwo)
        · rw [hx1, hx2]
          simp [scalesData, List.append_assoc]

theorem structScales_ok_of_le {V : Type} : ∀ (shapes : List (List (List Nat))) (x : List V),
    (shapes.map (fun sc => (sc.map List.prod).sum)).sum ≤ x.length →
    ∃ ss rest, structScales shapes x = .ok (ss, rest) := by
  intro shapes
  induction shapes with
  | nil => intro x _; exact ⟨[], x, rfl⟩
  | cons sc shapes ih =>
    intro x hle
    simp only [List.map_cons, List.sum_cons] at hle
    obtain ⟨ls, x1, hl⟩ := structLeaves_ok_of_le sc x (by omega)
    obtain ⟨hsh, hlen, hx⟩ := structLeaves_ok_spec sc x ls x1 hl
    have hx1len : (sc.map List.prod).sum + x1.length = x.length := by
      rw [hx, List.length_append]
      rw [leavesData_length hlen, hsh]
    obtain ⟨ss2, rest2, hr⟩ := ih x1 (by omega)
    exact ⟨ls :: ss2, rest2, by simp [structScales, hl, hr]⟩

theorem structScales_error_lt {V : Type} : ∀ (shapes : List (List (List Nat))) (x : List V)
    (e : PyErr), structScales shapes x = .error e →
    x.length < (shapes.map (fun sc => (sc.map List.prod).sum)).sum := by
  intro shapes
  induction shapes with
  | nil => intro x e h; exact absurd h (by simp [structScales])
  | cons sc shapes ih =>
    intro x e h
    simp only [List.map_cons, List.sum_cons]
    cases hl : structLeaves sc x with
    | error e2 =>
      have := structLeaves_error_lt sc x e2 hl
      omega
    | ok p =>
      obtain ⟨ls, x1⟩ := p
      cases hr : structScales shapes x1 with
      | error e2 =>
        obtain ⟨hsh, hlen, hx⟩ := structLeaves_ok_spec sc x ls x1 hl
        have hx1len : (sc.map List.prod).sum + x1.length = x.length := by
          rw [hx, List.length_append, leavesData_length hlen, hsh]
        have := ih x1 e2 hr
        omega
      | ok p2 =>
        obtain ⟨ss2, rest2⟩ := p2
        simp [structScales, hl, hr] at h

theorem structScales_of_wf {V : Type} : ∀ (ss : FDCTStructLike V) (r : List V),
    (∀ leaf ∈ ss.flatten, leaf.data.length = leaf.shape.prod) →
    structScales (ss.map (fun sc => sc.map Leaf.shape)) (scalesData ss ++ r) = .ok (ss, r) := by
  intro ss
  induction ss with
  | nil => intro r _; simp [structScales, scalesData]
  | cons sc ss ih =>
    intro r hlen
    have h1 : ∀ leaf ∈ sc, leaf.data.length = leaf.shape.prod := by
      intro l hl; exact hlen l (by simp [hl])
    have h2 : ∀ leaf ∈ ss.flatten, leaf.data.length = leaf.shape.prod := by
      intro l hl; exact hlen l (by simp [List.mem_flatten] at hl ⊢; tauto)
    have hx : scalesData (sc :: ss) ++ r = leavesData sc ++ (scalesData ss ++ r) := by
      simp [scalesData, List.append_assoc]
    simp [structScales, hx, structLeaves_of_wf sc (scalesData ss ++ r) h1, ih r h2]

theorem struct_ok_spec {V : Type} {op : FDCTOp} {x : List V} {s : FDCTStructLike V}
    (h : FDCT.struct op x = .ok s) :
    WellFormedStruct op.shapes s ∧ ∃ rest, x = FDCT.vect s ++ rest := by
  simp only [FDCT.struct, Except.map] at h
  cases hsc : structScales op.shapes x with
  | error e => rw [hsc] at h; exact absurd h (by simp)
  | ok p =>
    obtain ⟨ss, rest⟩ := p
    rw [hsc] at h
    simp only [Except.ok.injEq] at h
    subst h
    obtain ⟨h1, h2, h3⟩ := structScales_ok_spec op.shapes x ss rest hsc
    exact ⟨⟨h1, h2⟩, rest, by rw [vect_eq_scalesData]; exact h3⟩

theorem struct_ok_of_le {V : Type} {op : FDCTOp} {x : List V}
    (h : outputLenOf op.shapes ≤ x.length) :
    ∃ s, FDCT.struct op x = .ok s := by
  rw [outputLenOf_eq] at h
  obtain ⟨ss, rest, hsc⟩ := structScales_ok_of_le op.shapes x h
  exact ⟨ss, by simp [FDCT.struct, hsc, Except.map]⟩

theorem struct_error_lt {V : Type} {op : FDCTOp} {x : List V} {e : PyErr}
    (h : FDCT.struct op x = .error e) : x.length < outputLenOf op.shapes := by
  simp only [FDCT.struct, Except.map] at h
  cases hsc : structScales op.shapes x with
  | error e2 =>
    rw [outputLenOf_eq]
    exact structScales_error_lt op.shapes x e2 hsc
  | ok p => rw [hsc] at h; exact absurd h (by simp)

theorem struct_vect_of_wf {V : Type} {op : FDCTOp} {s : FDCTStructLike V}
    (h : WellFormedStruct op.shapes s) :
    FDCT.struct op (FDCT.vect s) = .ok s := by
  have := structScales_of_wf s [] h.2
  rw [List.append_nil, h.1] at this
  simp [FDCT.struct, vect_eq_scalesData, this, Except.map]

/-! ### Construction lemmas -/

theorem normalize_axis_index_lt {d : Int} {ndim a : Nat}
    (h : normalize_axis_index d ndim = .ok a) : a < ndim := by
  unfold normalize_axis_index at h
  split at h
  case isTrue hcond =>
    simp only [Except.ok.injEq] at h
    subst h
    split
    case isTrue hneg => omega
    case isFalse hpos => omega
  case isFalse => exact absurd h (by simp)

theorem normalize_axis_index_error {d : Int} {ndim : Nat}
    (hout : d < -(ndim : Int) ∨ (ndim : Int) ≤ d) :
    normalize_axis_index d ndim = .error .axisError := by
  unfold normalize_axis_index
  rw [if_neg]
  rintro ⟨h1, h2⟩
  omega

theorem normalize_axis_index_error_eq {d : Int} {ndim : Nat} {e : PyErr}
    (h : normalize_axis_index d ndim = .error e) : e = .axisError := by
  unfold normalize_axis_index at h
  split at h
  · exact absurd h (by simp)
  · simp only [Except.error.injEq] at h
    exact h.symm

theorem normAxes_lt : ∀ (axes : List Int) (ndim : Nat) (axesN : List Nat),
    normAxes axes ndim = .ok axesN → ∀ a ∈ axesN, a < ndim := by
  intro axes
  induction axes with
  | nil =>
    intro ndim axesN h a ha
    simp only [normAxes, Except.ok.injEq] at h
    subst h
    simp at ha
  | cons d rest ih =>
    intro ndim axesN h a ha
    cases hd : normalize_axis_index d ndim with
    | error e => simp [normAxes, hd] at h
    | ok a0 =>
      cases hrest : normAxes rest ndim with
      | error e => simp [normAxes, hd, hrest] at h
      | ok as0 =>
        simp only [normAxes, hd, hrest, Except.ok.injEq] at h
        subst h
        rcases List.mem_cons.1 ha with rfl | hmem
        · exact normalize_axis_index_lt hd
        · exact ih ndim as0 hrest a hmem

theorem normAxes_length : ∀ (axes : List Int) (ndim : Nat) (axesN : List Nat),
    normAxes axes ndim = .ok axesN → axesN.length = axes.length := by
  intro axes
  induction axes with
  | nil =>
    intro ndim axesN h
    simp only [normAxes, Except.ok.injEq] at h
    subst h
    rfl
  | cons d rest ih =>
    intro ndim axesN h
    cases hd : normalize_axis_index d ndim with
    | error e => simp [normAxes, hd] at h
    | ok a0 =>
      cases hrest : normAxes rest ndim with
      | error e => simp [normAxes, hd, hrest] at h
      | ok as0 =>
        simp only [normAxes, hd, hrest, Except.ok.injEq] at h
        subst h
        simp [ih ndim as0 hrest]

theorem normAxes_error_of_mem : ∀ (axes : List Int) (ndim : Nat) (d : Int), d ∈ axes →
    (d < -(ndim : Int) ∨ (ndim : Int) ≤ d) → normAxes axes ndim = .error .axisError := by
  intro axes
  induction axes with
  | nil => intro ndim d hd; simp at hd
  | cons d0 rest ih =>
    intro ndim d hd hout
    rcases List.mem_cons.1 hd with rfl | hmem
    · simp [normAxes, normalize_axis_index_error hout]
    · cases hd0 : normalize_axis_index d0 ndim with
      | error e =>
        have he := normalize_axis_index_error_eq hd0
        subst he
        simp [normAxes, hd0]
      | ok a => simp [normAxes, hd0, ih ndim d hmem hout]

theorem querySizes_ok_arity {nat : Native} {axesN input_shape : List Nat} {nbsc : Int}
    {nba : Nat} {ac : Bool} {sizes : List (List (List Nat))}
    (h : querySizes nat axesN input_shape nbsc nba ac = .ok sizes) :
    axesN.length = 2 ∨ axesN.length = 3 := by
  unfold querySizes at h
  by_cases h2 : axesN.length = 2
  · exact Or.inl h2
  · rw [if_neg h2] at h
    by_cases h3 : axesN.length = 3
    · exact Or.inr h3
    · rw [if_neg h3] at h
      exact absurd h (by simp)

theorem querySizes_error_arity {nat : Native} {axesN input_shape : List Nat} {nbsc : Int}
    {nba : Nat} {ac : Bool} (h2 : axesN.length ≠ 2) (h3 : axesN.length ≠ 3) :
    querySizes nat axesN input_shape nbsc nba ac = .error .arityError := by
  unfold querySizes
  rw [if_neg h2, if_neg h3]

theorem mk_ok_spec {nat : Native} {dims : List Nat} {axes : List Int} {nbs : Option Int}
    {nba : Nat} {ac : Bool} {dt : DType} {op : FDCTOp}
    (h : FDCT.mk nat dims axes nbs nba ac dt = .ok op) :
    normAxes axes dims.length = .ok op.axes ∧
    op.inpdims = dims ∧ op.dtype = dt ∧ dt.isComplexFloating = true ∧
    op.input_shape = op.axes.map (fun d => dims.getD d 0) ∧
    op.iterator = cartProd ((List.range dims.length).map (fun ax =>
      if ax ∈ op.axes then [Idx.all]
      else (List.range (dims.getD ax 0)).map Idx.coord)) ∧
    op.ndim_iterable = (gather ((List.range dims.length).map
      (fun i => decide (¬i ∈ op.axes))) dims).prod ∧
    op.output_len = outputLenOf op.shapes ∧
    op.dimsd = gather ((List.range dims.length).map
      (fun i => decide (¬i ∈ op.axes))) dims ++ [op.output_len] ∧
    (op.axes.length = 2 ∨ op.axes.length = 3) := by
  cases hax : normAxes axes dims.length with
  | error e =>
    simp only [FDCT.mk, hax] at h
    exact absurd h (by simp)
  | ok axesN =>
    cases hnb : defaultNbscales nbs (axesN.map (fun d => dims.getD d 0)) with
    | error e =>
      simp only [FDCT.mk, hax, hnb] at h
      exact absurd h (by simp)
    | ok nbsc =>
      cases hq : querySizes nat axesN (axesN.map (fun d => dims.getD d 0)) nbsc nba ac with
      | error e =>
        simp only [FDCT.mk, hax, hnb, hq] at h
        exact absurd h (by simp)
      | ok sizes =>
        cases hdt : dt.isComplexFloating with
        | false =>
          simp only [FDCT.mk, hax, hnb, hq, hdt, Bool.false_eq_true, if_false] at h
          exact absurd h (by simp)
        | true =>
          simp only [FDCT.mk, hax, hnb, hq, hdt, if_true, Except.ok.injEq] at h
          subst h
          exact ⟨rfl, rfl, rfl, rfl, rfl, rfl, rfl, rfl, rfl,
            querySizes_ok_arity hq⟩

theorem mk_error_of_arity {nat : Native} {dims : List Nat} {axes : List Int}
    {nbs : Option Int} {nba : Nat} {ac : Bool} {dt : DType}
    (h2 : axes.length ≠ 2) (h3 : axes.length ≠ 3) :
    ∃ e, FDCT.mk nat dims axes nbs nba ac dt = .error e := by
  cases hax : normAxes axes dims.length with
  | error e => exact ⟨e, by simp only [FDCT.mk, hax]⟩
  | ok axesN =>
    have hlen := normAxes_length axes dims.length axesN hax
    cases hnb : defaultNbscales nbs (axesN.map (fun d => dims.getD d 0)) with
    | error e => exact ⟨e, by simp only [FDCT.mk, hax, hnb]⟩
    | ok nbsc =>
      have hq : querySizes nat axesN (axesN.map (fun d => dims.getD d 0)) nbsc nba ac =
          .error .arityError := querySizes_error_arity (by omega) (by omega)
      exact ⟨.arityError, by simp only [FDCT.mk, hax, hnb, hq]⟩

theorem mk_error_of_out_of_range {nat : Native} {dims : List Nat} {axes : List Int}
    {nbs : Option Int} {nba : Nat} {ac : Bool} {dt : DType} {d : Int}
    (hmem : d ∈ axes) (hout : d < -(dims.length : Int) ∨ (dims.length : Int) ≤ d) :
    FDCT.mk nat dims axes nbs nba ac dt = .error .axisError := by
  simp [FDCT.mk, normAxes_error_of_mem axes dims.length d hmem hout]

theorem mk_isOk_dtype (nat : Native) (dims : List Nat) (axes : List Int)
    (nbs : Option Int) (nba : Nat) (ac : Bool) (dt : DType) :
    (FDCT.mk nat dims axes nbs nba ac dt).isOk =
      (dt.isComplexFloating && (FDCT.mk nat dims axes nbs nba ac .complex128).isOk) := by
  cases hax : normAxes axes dims.length with
  | error e =>
    simp only [FDCT.mk, hax]
    simp [Except.isOk, Except.toBool]
  | ok axesN =>
    cases hnb : defaultNbscales nbs (axesN.map (fun d => dims.getD d 0)) with
    | error e =>
      simp only [FDCT.mk, hax, hnb]
      simp [Except.isOk, Except.toBool]
    | ok nbsc =>
      cases hq : querySizes nat axesN (axesN.map (fun d => dims.getD d 0)) nbsc nba ac with
      | error e =>
        simp only [FDCT.mk, hax, hnb, hq]
        simp [Except.isOk, Except.toBool]
      | ok sizes =>
        cases hdt : dt.isComplexFloating with
        | false =>
          simp only [FDCT.mk, hax, hnb, hq, hdt, Bool.false_eq_true, if_false]
          simp [Except.isOk, Except.toBool, DType.isComplexFloating]
        | true =>
          simp only [FDCT.mk, hax, hnb, hq, hdt, if_true]
          simp [Except.isOk, Except.toBool, DType.isComplexFloating]

theorem mk_dtype_error (nat : Native) (dims : List Nat) (axes : List Int)
    (nbs : Option Int) (nba : Nat) (ac : Bool) (dt : DType)
    (hok : (FDCT.mk nat dims axes nbs nba ac .complex128).isOk = true)
    (hdt : dt.isComplexFloating = false) :
    FDCT.mk nat dims axes nbs nba ac dt = .error .dtypeError := by
  cases hax : normAxes axes dims.length with
  | error e =>
    simp only [FDCT.mk, hax] at hok
    simp [Except.isOk, Except.toBool] at hok
  | ok axesN =>
    cases hnb : defaultNbscales nbs (axesN.map (fun d => dims.getD d 0)) with
    | error e =>
      simp only [FDCT.mk, hax, hnb] at hok
      simp [Except.isOk, Except.toBool] at hok
    | ok nbsc =>
      cases hq : querySizes nat axesN (axesN.map (fun d => dims.getD d 0)) nbsc nba ac with
      | error e =>
        simp only [FDCT.mk, hax, hnb, hq] at hok
        simp [Except.isOk, Except.toBool] at hok
      | ok sizes =>
        simp only [FDCT.mk, hax, hnb, hq, hdt, Bool.false_eq_true, if_false]

/-! ### Forward/adjoint application lemmas -/

theorem drop_cons_facts {α : Type} {l : List α} {a : α} {rest : List α} {i : Nat} (dflt : α)
    (h : a :: rest = l.drop i) : i < l.length ∧ l.getD i dflt = a ∧ rest = l.drop (i + 1) := by
  refine ⟨?_, ?_, ?_⟩
  · by_contra hge
    rw [List.drop_eq_nil_of_le (by omega)] at h
    simp at h
  · rw [List.getD_eq_getElem?_getD, ← List.head?_drop, ← h]
    rfl
  · rw [← List.tail_drop, ← h]
    rfl

theorem matvec_dtype {V : Type} [Zero V] (op : FDCTOp)
    (fdct : List V → FDCTStructLike V) (x : NDArr V) :
    (FDCT.matvec op fdct x).dtype = op.dtype := rfl

theorem rmatvec_dtype {V : Type} [Zero V] (op : FDCTOp)
    (ifdct : FDCTStructLike V → List V) (y : NDArr V) :
    (FDCT.rmatvec op ifdct y).dtype = op.dtype := rfl

theorem matvec_data_length {V : Type} [Zero V] (op : FDCTOp)
    (fdct : List V → FDCTStructLike V) (x : NDArr V) :
    (FDCT.matvec op fdct x).data.length = op.output_len * op.ndim_iterable := by
  simp [FDCT.matvec]

theorem matvec_getD {V : Type} [Zero V] (op : FDCTOp) (fdct : List V → FDCTStructLike V)
    (x : NDArr V) {k i : Nat} (hk : k < op.output_len) (hi : i < op.ndim_iterable)
    (hi2 : i < op.iterator.length) :
    (FDCT.matvec op fdct x).data.getD (k * op.ndim_iterable + i) 0 =
      (FDCT.vect (fdct (gather (sliceMask op.inpdims (op.iterator.getD i [])) x.data))).getD k 0 := by
  have hlt : k * op.ndim_iterable + i < op.output_len * op.ndim_iterable := by
    calc k * op.ndim_iterable + i < (k + 1) * op.ndim_iterable := by
          rw [Nat.succ_mul]; omega
      _ ≤ op.output_len * op.ndim_iterable := Nat.mul_le_mul_right _ hk
  simp only [FDCT.matvec]
  rw [getD_range_map_lt _ _ hlt]
  have hmod : (k * op.ndim_iterable + i) % op.ndim_iterable = i := by
    rw [Nat.add_comm, Nat.add_mul_mod_self_right, Nat.mod_eq_of_lt hi]
  have hdiv : (k * op.ndim_iterable + i) / op.ndim_iterable = k := by
    have hn : 0 < op.ndim_iterable := by omega
    rw [Nat.add_comm, Nat.add_mul_div_right _ _ hn, Nat.div_eq_of_lt hi]
    omega
  rw [hmod, hdiv]
  have hmap : (op.iterator.map (fun pat =>
      FDCT.vect (fdct (gather (sliceMask op.inpdims pat) x.data)))).getD i [] =
      FDCT.vect (fdct (gather (sliceMask op.inpdims (op.iterator.getD i [])) x.data)) := by
    rw [List.getD_eq_getElem _ _ (by simpa using hi2), List.getElem_map,
      List.getD_eq_getElem _ _ hi2]
  rw [hmap]

theorem outCol_length {V : Type} [Zero V] (y : List V) (L n i : Nat) :
    (outCol y L n i).length = L := by simp [outCol]

theorem outCol_getD {V : Type} [Zero V] (y : List V) (L n i k : Nat) (hk : k < L) :
    (outCol y L n i).getD k 0 = y.getD (k * n + i) 0 := by
  simp only [outCol]
  rw [getD_range_map_lt _ _ hk]

theorem outCol_matvec {V : Type} [Zero V] (op : FDCTOp) (fdct : List V → FDCTStructLike V)
    (x : NDArr V) (hout : op.output_len = outputLenOf op.shapes)
    (hconf : ∀ xs : List V, WellFormedStruct op.shapes (fdct xs))
    {i : Nat} (hi : i < op.ndim_iterable) (hi2 : i < op.iterator.length) :
    outCol (FDCT.matvec op fdct x).data op.output_len op.ndim_iterable i =
      FDCT.vect (fdct (gather (sliceMask op.inpdims (op.iterator.getD i [])) x.data)) := by
  apply List.ext_getElem
  · rw [outCol_length, vect_length_of_wf (hconf _), hout]
  · intro k h1 h2
    rw [← List.getD_eq_getElem _ 0 h1, ← List.getD_eq_getElem _ 0 h2]
    have hk : k < op.output_len := by simpa [outCol_length] using h1
    rw [outCol_getD _ _ _ _ _ hk]
    exact matvec_getD op fdct x hk hi hi2

theorem rmatvecLoop_length {V : Type} [Zero V] (op : FDCTOp)
    (ifdct : FDCTStructLike V → List V) (y : List V) :
    ∀ (pats : List (List Idx)) (i : Nat) (acc : List V),
    (rmatvecLoop op ifdct y pats i acc).length = acc.length := by
  intro pats
  induction pats with
  | nil => intro i acc; rfl
  | cons pat rest ih =>
    intro i acc
    simp only [rmatvecLoop]
    rw [ih, scatter_length]

theorem rSlice_struct {V : Type} [Zero V] {op : FDCTOp} {ifdct : FDCTStructLike V → List V}
    {y : List V} {i : Nat} {s : FDCTStructLike V}
    (hs : FDCT.struct op (outCol y op.output_len op.ndim_iterable i) = .ok s) :
    rSlice op ifdct y i = ifdct s := by
  simp [rSlice, hs]

theorem rmatvecLoop_roundtrip_getD {V : Type} [Zero V] (op : FDCTOp)
    (ifdct : FDCTStructLike V → List V) (y x : List V)
    (hlen : x.length = op.inpdims.prod)
    (hstep : ∀ i, i < op.iterator.length →
      rSlice op ifdct y i = gather (sliceMask op.inpdims (op.iterator.getD i [])) x) :
    ∀ (pats : List (List Idx)) (i0 : Nat) (acc : List V), pats = op.iterator.drop i0 →
    acc.length = x.length → ∀ p, p < x.length →
    (rmatvecLoop op ifdct y pats i0 acc).getD p 0 =
      if pats.any (fun pat => (sliceMask op.inpdims pat).getD p false) then x.getD p 0
      else acc.getD p 0 := by
  intro pats
  induction pats with
  | nil =>
    intro i0 acc _ _ p hp
    simp [rmatvecLoop]
  | cons pat rest ih =>
    intro i0 acc hdrop hacc p hp
    obtain ⟨hlt, hget, hrest⟩ := drop_cons_facts ([] : List Idx) hdrop
    simp only [rmatvecLoop]
    have hstepi := hstep i0 hlt
    rw [hget] at hstepi
    rw [hstepi]
    have hmask_len : (sliceMask op.inpdims pat).length = x.length := by
      rw [sliceMask_length, hlen]
    have hacc2 : (scatter (sliceMask op.inpdims pat)
        (gather (sliceMask op.inpdims pat) x) acc).length = x.length := by
      rw [scatter_length, hacc]
    rw [ih (i0 + 1) _ hrest hacc2 p hp,
      scatter_gather_getD _ _ _ _ hmask_len (by omega), List.any_cons]
    cases hany : rest.any (fun pat2 => (sliceMask op.inpdims pat2).getD p false) with
    | true =>
      rw [if_pos rfl, if_pos (by rw [Bool.or_true])]
    | false =>
      rw [if_neg (fun hc => Bool.false_ne_true hc), Bool.or_false]

theorem rmatvecLoop_gather_untouched {V : Type} [Zero V] (op : FDCTOp)
    (ifdct : FDCTStructLike V → List V) (y : List V) (pat : List Idx) :
    ∀ (pats : List (List Idx)) (i0 : Nat) (acc : List V),
    (∀ pat2 ∈ pats, ∀ p, ¬((sliceMask op.inpdims pat).getD p false = true ∧
      (sliceMask op.inpdims pat2).getD p false = true)) →
    gather (sliceMask op.inpdims pat) (rmatvecLoop op ifdct y pats i0 acc) =
      gather (sliceMask op.inpdims pat) acc := by
  intro pats
  induction pats with
  | nil => intro i0 acc _; rfl
  | cons pat2 rest ih =>
    intro i0 acc hdisj
    simp only [rmatvecLoop]
    rw [ih (i0 + 1) _ (fun q hq => hdisj q (by simp [hq]))]
    exact gather_scatter_disjoint _ _ _ _ (hdisj pat2 (by simp))

theorem rmatvecLoop_gather_main {V : Type} [Zero V] (op : FDCTOp)
    (ifdct : FDCTStructLike V → List V) (y : List V)
    (hnodup : op.iterator.Nodup)
    (hdisj : ∀ pat pat2, pat ∈ op.iterator → pat2 ∈ op.iterator → pat ≠ pat2 →
      ∀ p, ¬((sliceMask op.inpdims pat).getD p false = true ∧
        (sliceMask op.inpdims pat2).getD p false = true))
    (hrs : ∀ j, j < op.iterator.length → (rSlice op ifdct y j).length =
      countTrue (sliceMask op.inpdims (op.iterator.getD j [])))
    {i : Nat} (hi : i < op.iterator.length) :
    ∀ (pats : List (List Idx)) (i0 : Nat) (acc : List V), pats = op.iterator.drop i0 →
    i0 ≤ i → acc.length = op.inpdims.prod →
    gather (sliceMask op.inpdims (op.iterator.getD i []))
      (rmatvecLoop op ifdct y pats i0 acc) = rSlice op ifdct y i := by
  intro pats
  induction pats with
  | nil =>
    intro i0 acc hdrop hle _
    have : op.iterator.length ≤ i0 := by
      by_contra hgt
      have h1 : op.iterator.drop i0 ≠ [] := by
        intro hnil
        have := List.length_drop i0 op.iterator
        rw [hnil] at this
        simp at this
        omega
      exact h1 hdrop.symm
    omega
  | cons pat rest ih =>
    intro i0 acc hdrop hle hacc
    obtain ⟨hlt, hget, hrest⟩ := drop_cons_facts ([] : List Idx) hdrop
    simp only [rmatvecLoop]
    have hmem : ∀ j, j < op.iterator.length → op.iterator.getD j [] ∈ op.iterator := by
      intro j hj
      rw [List.getD_eq_getElem _ _ hj]
      exact List.getElem_mem _
    have hne_of_ne : ∀ j, j < op.iterator.length → j ≠ i →
        op.iterator.getD j [] ≠ op.iterator.getD i [] := by
      intro j hj hne heq
      rw [List.getD_eq_getElem _ _ hj, List.getD_eq_getElem _ _ hi] at heq
      have hpw := List.pairwise_iff_getElem.1 hnodup
      rcases Nat.lt_or_ge j i with hlt2 | hge
      · exact hpw j i hj hi hlt2 heq
      · have : i < j := by omega
        exact hpw i j hi hj this heq.symm
    rcases Nat.eq_or_lt_of_le hle with heq | hlt2
    · -- i0 = i: this step writes slot i; the rest never touches its mask
      subst heq
      have hrest_untouched : ∀ pat2 ∈ rest, ∀ p,
          ¬((sliceMask op.inpdims (op.iterator.getD i0 [])).getD p false = true ∧
            (sliceMask op.inpdims pat2).getD p false = true) := by
        intro pat2 hpat2 p
        rw [hrest] at hpat2
        rw [List.mem_iff_getElem] at hpat2
        obtain ⟨j, hj, hjeq⟩ := hpat2
        rw [List.getElem_drop] at hjeq
        have hj2 : i0 + 1 + j < op.iterator.length := by
          have := List.length_drop (i0 + 1) op.iterator
          omega
        have : pat2 = op.iterator.getD (i0 + 1 + j) [] := by
          rw [List.getD_eq_getElem _ _ hj2, ← hjeq]
        rw [this]
        intro ⟨ha, hb⟩
        exact hdisj _ _ (hmem i0 hlt) (hmem _ hj2)
          (Ne.symm (hne_of_ne _ hj2 (by omega))) p ⟨ha, hb⟩
      rw [rmatvecLoop_gather_untouched op ifdct y _ rest (i0 + 1) _ hrest_untouched]
      rw [hget]
      exact gather_scatter_same _ _ _
        (by rw [sliceMask_length, hacc])
        (by rw [← hget]; exact (hrs i0 hlt).symm)
    · -- i0 < i: recurse
      have hacc2 : (scatter (sliceMask op.inpdims pat) (rSlice op ifdct y i0) acc).length =
          op.inpdims.prod := by
        rw [scatter_length, hacc]
      exact ih (i0 + 1) _ hrest (by omega) hacc2

/-! ### Invariants of a constructed operator -/

theorem op_iterator_eq_specEnum {nat : Native} {dims : List Nat} {axes : List Int}
    {nbs : Option Int} {nba : Nat} {ac : Bool} {dt : DType} {op : FDCTOp}
    (h : FDCT.mk nat dims axes nbs nba ac dt = .ok op) :
    op.iterator = specEnum dims op.axes := by
  obtain ⟨-, -, -, -, -, hiter, -, -, -, -⟩ := mk_ok_spec h
  rw [hiter, specEnum]
  congr 1
  have := rangeMap_axisOpts_eq op.axes dims dims 0 (List.drop_zero dims)
  rw [← List.range_eq_range'] at this
  exact this

theorem op_iterator_length {nat : Native} {dims : List Nat} {axes : List Int}
    {nbs : Option Int} {nba : Nat} {ac : Bool} {dt : DType} {op : FDCTOp}
    (h : FDCT.mk nat dims axes nbs nba ac dt = .ok op) :
    op.iterator.length = (specBatchShape op.axes dims 0).prod ∧
      op.ndim_iterable = (specBatchShape op.axes dims 0).prod := by
  obtain ⟨-, -, -, -, -, -, hnit, -, -, -⟩ := mk_ok_spec h
  constructor
  · rw [op_iterator_eq_specEnum h, specEnum, specEnum_length_aux]
  · rw [hnit]
    congr 1
    have := gather_bits_eq_specBatchShape op.axes dims dims 0 (List.drop_zero dims)
    rw [← List.range_eq_range'] at this
    exact this

theorem op_iterator_nodup {nat : Native} {dims : List Nat} {axes : List Int}
    {nbs : Option Int} {nba : Nat} {ac : Bool} {dt : DType} {op : FDCTOp}
    (h : FDCT.mk nat dims axes nbs nba ac dt = .ok op) :
    op.iterator.Nodup := by
  rw [op_iterator_eq_specEnum h, specEnum]
  exact cartProd_nodup _ (specAxisSpecs_nodup op.axes dims 0)

theorem op_mask_disjoint {nat : Native} {dims : List Nat} {axes : List Int}
    {nbs : Option Int} {nba : Nat} {ac : Bool} {dt : DType} {op : FDCTOp}
    (h : FDCT.mk nat dims axes nbs nba ac dt = .ok op) :
    ∀ pat pat2, pat ∈ op.iterator → pat2 ∈ op.iterator → pat ≠ pat2 →
    ∀ p, ¬((sliceMask op.inpdims pat).getD p false = true ∧
      (sliceMask op.inpdims pat2).getD p false = true) := by
  obtain ⟨-, hdims, -, -, -, -, -, -, -, -⟩ := mk_ok_spec h
  intro pat pat2 h1 h2 hne
  rw [op_iterator_eq_specEnum h, specEnum] at h1 h2
  rw [hdims]
  exact specEnum_disjoint op.axes dims 0 pat pat2 h1 h2 hne

theorem op_mask_cover {nat : Native} {dims : List Nat} {axes : List Int}
    {nbs : Option Int} {nba : Nat} {ac : Bool} {dt : DType} {op : FDCTOp}
    (h : FDCT.mk nat dims axes nbs nba ac dt = .ok op) {p : Nat} (hp : p < dims.prod) :
    op.iterator.any (fun pat => (sliceMask op.inpdims pat).getD p false) = true := by
  obtain ⟨-, hdims, -, -, -, -, -, -, -, -⟩ := mk_ok_spec h
  obtain ⟨pat, hmem, hmask⟩ := specEnum_cover op.axes dims 0 p hp
  rw [List.any_eq_true]
  refine ⟨pat, ?_, ?_⟩
  · rw [op_iterator_eq_specEnum h, specEnum]
    exact hmem
  · rw [hdims]
    exact hmask

theorem op_mask_count {nat : Native} {dims : List Nat} {axes : List Int}
    {nbs : Option Int} {nba : Nat} {ac : Bool} {dt : DType} {op : FDCTOp}
    (h : FDCT.mk nat dims axes nbs nba ac dt = .ok op) (hnodup : op.axes.Nodup) :
    ∀ pat ∈ op.iterator, countTrue (sliceMask op.inpdims pat) = op.input_shape.prod := by
  obtain ⟨hax, hdims, -, -, hinp, -, -, -, -, -⟩ := mk_ok_spec h
  intro pat hmem
  rw [op_iterator_eq_specEnum h, specEnum] at hmem
  rw [hdims, countTrue_sliceMask op.axes dims 0 pat hmem,
    tShape_prod_eq_input_shape_prod op.axes dims hnodup (normAxes_lt axes dims.length op.axes hax),
    hinp]

/-! ### Error identity of the codec -/

theorem structLeaves_error_eq {V : Type} : ∀ (shs : List (List Nat)) (x : List V)
    (e : PyErr), structLeaves shs x = .error e → e = .reshapeError := by
  intro shs
  induction shs with
  | nil => intro x e h; simp [structLeaves] at h
  | cons sh shs ih =>
    intro x e h
    simp only [structLeaves] at h
    split at h
    case isTrue =>
      cases hrec : structLeaves shs (x.drop sh.prod) with
      | error e2 =>
        rw [hrec] at h
        simp only [Except.error.injEq] at h
        subst h
        exact ih (x.drop sh.prod) e2 hrec
      | ok p =>
        obtain ⟨a, b⟩ := p
        rw [hrec] at h
        simp at h
    case isFalse =>
      simp only [Except.error.injEq] at h
      exact h.symm

theorem structScales_error_eq {V : Type} : ∀ (shapes : List (List (List Nat))) (x : List V)
    (e : PyErr), structScales shapes x = .error e → e = .reshapeError := by
  intro shapes
  induction shapes with
  | nil => intro x e h; simp [structScales] at h
  | cons sc shapes ih =>
    intro x e h
    cases hl : structLeaves sc x with
    | error e2 =>
      simp only [structScales, hl, Except.error.injEq] at h
      subst h
      exact structLeaves_error_eq sc x e2 hl
    | ok p =>
      obtain ⟨ls, x1⟩ := p
      cases hr : structScales shapes x1 with
      | error e2 =>
        simp only [structScales, hl, hr, Except.error.injEq] at h
        subst h
        exact ih x1 e2 hr
      | ok p2 =>
        obtain ⟨ss2, rest2⟩ := p2
        simp [structScales, hl, hr] at h

theorem struct_error_eq {V : Type} {op : FDCTOp} {x : List V} {e : PyErr}
    (h : FDCT.struct op x = .error e) : e = .reshapeError := by
  simp only [FDCT.struct, Except.map] at h
  cases hsc : structScales op.shapes x with
  | error e2 =>
    rw [hsc] at h
    simp only [Except.error.injEq] at h
    subst h
    exact structScales_error_eq op.shapes x e2 hsc
  | ok p =>
    obtain ⟨ss, rest⟩ := p
    rw [hsc] at h
    simp at h

/-! ### Facts about the concrete sample -/

theorem opSample_mk :
    FDCT.mk natSample [2, 2, 2] [1, 2] (some 1) 8 true .complex128 = .ok opSample := rfl

theorem opSample488_mk :
    FDCT.mk natSample [4, 8, 8] [1, 2] (some 2) 8 true .complex128 = .ok opSample488 := rfl

theorem fdctSample_wf (xs : List Int) : WellFormedStruct opSample.shapes (fdctSample xs) := by
  constructor
  · rfl
  · intro leaf hleaf
    simp only [fdctSample, List.flatten_cons, List.flatten_nil, List.append_nil,
      List.mem_singleton] at hleaf
    subst hleaf
    simp only [List.length_append, List.length_take, List.length_replicate]
    show _ = ([2, 2] : List Nat).prod
    simp only [List.prod_cons, List.prod_nil]
    omega

theorem ifdctSample_inv (xs : List Int) (h : xs.length = opSample.input_shape.prod) :
    ifdctSample (fdctSample xs) = xs := by
  have h4 : xs.length = 4 := h
  have hl : xs.take 4 ++ List.replicate (4 - xs.length) 0 = xs := by
    rw [h4, Nat.sub_self, List.replicate_zero, List.append_nil,
      List.take_of_length_le (by omega)]
  simp only [ifdctSample, fdctSample, List.getD_cons_zero]
  rw [hl]
  exact hl

theorem ifdctSample_len (s : FDCTStructLike Int) :
    (ifdctSample s).length = opSample.input_shape.prod := by
  show (ifdctSample s).length = 4
  simp only [ifdctSample, List.length_append, List.length_take, List.length_replicate]
  omega

/-! ### Claim theorems -/

/-- C1: for every validly constructed operator (complex dtype, 2 or 3
distinct in-range transform axes) and every input of length
`product(inputShape)`, applying the adjoint/inverse to the forward
application returns the input exactly, under the hypotheses that the native
forward returns structures conforming to the shape table and that the
native inverse is the exact inverse of the native forward on each slice:
the adapter only reshapes, slices and concatenates. -/
theorem C1_round_trip {V : Type} [Zero V] (nat : Native) (dims : List Nat)
    (axes : List Int) (nbs : Option Int) (nba : Nat) (ac : Bool) (dt : DType)
    (op : FDCTOp) (fdct : List V → FDCTStructLike V) (ifdct : FDCTStructLike V → List V)
    (hmk : FDCT.mk nat dims axes nbs nba ac dt = .ok op)
    (hnodup : op.axes.Nodup)
    (hconf : ∀ xs : List V, WellFormedStruct op.shapes (fdct xs))
    (hinv : ∀ xs : List V, xs.length = op.input_shape.prod → ifdct (fdct xs) = xs)
    (x : NDArr V) (hx : x.data.length = dims.prod) :
    (FDCT.rmatvec op ifdct (FDCT.matvec op fdct x)).data = x.data := by
  obtain ⟨hax, hdims, -, -, -, -, -, hout, -, -⟩ := mk_ok_spec hmk
  obtain ⟨hlen1, hlen2⟩ := op_iterator_length hmk
  have hn_eq : op.iterator.length = op.ndim_iterable := by rw [hlen1, hlen2]
  have hxlen : x.data.length = op.inpdims.prod := by rw [hdims, hx]
  have hstep : ∀ i, i < op.iterator.length →
      rSlice op ifdct (FDCT.matvec op fdct x).data i =
        gather (sliceMask op.inpdims (op.iterator.getD i [])) x.data := by
    intro i hi
    have hi2 : i < op.ndim_iterable := by omega
    have hcol := outCol_matvec op fdct x hout hconf hi2 hi
    have hwf := hconf (gather (sliceMask op.inpdims (op.iterator.getD i [])) x.data)
    have hstructOk : FDCT.struct op
        (outCol (FDCT.matvec op fdct x).data op.output_len op.ndim_iterable i) =
        .ok (fdct (gather (sliceMask op.inpdims (op.iterator.getD i [])) x.data)) := by
      rw [hcol]
      exact struct_vect_of_wf hwf
    rw [rSlice_struct hstructOk]
    apply hinv
    have hmem : op.iterator.getD i [] ∈ op.iterator := by
      rw [List.getD_eq_getElem _ _ hi]
      exact List.getElem_mem _
    have hmlen : (sliceMask op.inpdims (op.iterator.getD i [])).length = x.data.length := by
      rw [sliceMask_length, hdims, hx]
    rw [gather_length _ _ hmlen]
    exact op_mask_count hmk hnodup _ hmem
  have hzeros : (List.replicate op.inpdims.prod (0 : V)).length = x.data.length := by
    rw [List.length_replicate, hdims, hx]
  apply List.ext_getElem
  · show (rmatvecLoop op ifdct (FDCT.matvec op fdct x).data op.iterator 0
        (List.replicate op.inpdims.prod 0)).length = x.data.length
    rw [rmatvecLoop_length, List.length_replicate, hdims, hx]
  · intro p h1 h2
    rw [← List.getD_eq_getElem _ 0 h1, ← List.getD_eq_getElem _ 0 h2]
    show (rmatvecLoop op ifdct (FDCT.matvec op fdct x).data op.iterator 0
        (List.replicate op.inpdims.prod 0)).getD p 0 = x.data.getD p 0
    rw [rmatvecLoop_roundtrip_getD op ifdct (FDCT.matvec op fdct x).data x.data hxlen hstep
      op.iterator 0 _ (List.drop_zero _).symm hzeros p h2]
    rw [if_pos (op_mask_cover hmk (p := p) (by rw [← hx]; exact h2))]

/-- Witness for C1 at the concrete sample operator and oracle. -/
theorem C1_round_trip_witness :
    (FDCT.rmatvec opSample ifdctSample
      (FDCT.matvec opSample fdctSample
        ⟨DType.complex128, [1, 2, 3, 4, 5, 6, 7, 8]⟩)).data =
      [1, 2, 3, 4, 5, 6, 7, 8] :=
  C1_round_trip natSample [2, 2, 2] [1, 2] (some 1) 8 true .complex128 opSample
    fdctSample ifdctSample opSample_mk (by decide) fdctSample_wf ifdctSample_inv
    ⟨DType.complex128, [1, 2, 3, 4, 5, 6, 7, 8]⟩ (by decide)

/-- C2: for every validly constructed operator the coefficient codec
satisfies both inverse laws exactly: `vect (struct v) = v` for every flat
vector of length `perSliceOutputLen`, and `struct (vect s) = s` for every
structure produced by `struct`. -/
theorem C2_codec_inverse_laws {V : Type} (nat : Native) (dims : List Nat)
    (axes : List Int) (nbs : Option Int) (nba : Nat) (ac : Bool) (dt : DType)
    (op : FDCTOp) (hmk : FDCT.mk nat dims axes nbs nba ac dt = .ok op) :
    (∀ v : List V, v.length = op.output_len →
      ∃ s, FDCT.struct op v = .ok s ∧ FDCT.vect s = v) ∧
    (∀ (v : List V) (s : FDCTStructLike V), FDCT.struct op v = .ok s →
      FDCT.struct op (FDCT.vect s) = .ok s) := by
  obtain ⟨-, -, -, -, -, -, -, hout, -, -⟩ := mk_ok_spec hmk
  constructor
  · intro v hv
    obtain ⟨s, hs⟩ := @struct_ok_of_le V op v (by rw [← hout]; omega)
    refine ⟨s, hs, ?_⟩
    obtain ⟨hwf, rest, hsplit⟩ := struct_ok_spec hs
    have hlenv := vect_length_of_wf hwf
    have hlens := congrArg List.length hsplit
    rw [List.length_append] at hlens
    have hrest : rest = [] := List.eq_nil_of_length_eq_zero (by omega)
    rw [hrest, List.append_nil] at hsplit
    exact hsplit.symm
  · intro v s hs
    obtain ⟨hwf, -⟩ := struct_ok_spec hs
    exact struct_vect_of_wf hwf

/-- Witness for C2 at the concrete sample operator. -/
theorem C2_codec_inverse_laws_witness :
    ∃ s, FDCT.struct opSample ([1, 2, 3, 4] : List Int) = .ok s ∧
      FDCT.vect s = [1, 2, 3, 4] :=
  (C2_codec_inverse_laws natSample [2, 2, 2] [1, 2] (some 1) 8 true .complex128
    opSample opSample_mk).1 [1, 2, 3, 4] (by decide)

/-- C3 (counterexample): the forward output is NOT "slice-major with the
coefficient index varying fastest", as the claim states.  For the sample
operator with two batch slices and four coefficients per slice, the actual
output interleaves slices (`[1, 5, 2, 6, 3, 7, 4, 8]`), unlike the claimed
layout (`[1, 2, 3, 4, 5, 6, 7, 8]`). -/
theorem C3_layout_counterexample :
    FDCT.mk natSample [2, 2, 2] [1, 2] (some 1) 8 true .complex128 = .ok opSample ∧
    (FDCT.matvec opSample fdctSample
      ⟨DType.complex128, [1, 2, 3, 4, 5, 6, 7, 8]⟩).data ≠
      claimedForwardFlatten opSample fdctSample [1, 2, 3, 4, 5, 6, 7, 8] :=
  ⟨rfl, by decide⟩

/-- C3 (amended): the forward output is the `(perSliceOutputLen,
numBatchSlices)` accumulator raveled in C order, so the batch-slice index
varies fastest and the coefficient index slowest: flat slot
`k·numBatchSlices + i` holds coefficient `k` of batch slice `i`, and the
output length is `perSliceOutputLen × numBatchSlices`. -/
theorem C3_forward_layout {V : Type} [Zero V] (nat : Native) (dims : List Nat)
    (axes : List Int) (nbs : Option Int) (nba : Nat) (ac : Bool) (dt : DType)
    (op : FDCTOp) (hmk : FDCT.mk nat dims axes nbs nba ac dt = .ok op)
    (fdct : List V → FDCTStructLike V) (x : NDArr V) :
    (FDCT.matvec op fdct x).data.length = op.output_len * op.ndim_iterable ∧
    ∀ k i, k < op.output_len → i < op.ndim_iterable →
      (FDCT.matvec op fdct x).data.getD (k * op.ndim_iterable + i) 0 =
        (FDCT.vect (fdct (gather (sliceMask op.inpdims
          (op.iterator.getD i [])) x.data))).getD k 0 := by
  refine ⟨matvec_data_length op fdct x, ?_⟩
  intro k i hk hi
  obtain ⟨hl1, hl2⟩ := op_iterator_length hmk
  exact matvec_getD op fdct x hk hi (by omega)

/-- Witness for the amended C3 at the concrete sample operator. -/
theorem C3_forward_layout_witness :
    (FDCT.matvec opSample fdctSample
      ⟨DType.complex128, [1, 2, 3, 4, 5, 6, 7, 8]⟩).data.length =
      opSample.output_len * opSample.ndim_iterable ∧
    (FDCT.matvec opSample fdctSample
      ⟨DType.complex128, [1, 2, 3, 4, 5, 6, 7, 8]⟩).data.getD
        (1 * opSample.ndim_iterable + 1) 0 =
      (FDCT.vect (fdctSample (gather (sliceMask opSample.inpdims
        (opSample.iterator.getD 1 [])) [1, 2, 3, 4, 5, 6, 7, 8]))).getD 1 0 := by
  have h := C3_forward_layout natSample [2, 2, 2] [1, 2] (some 1) 8 true .complex128
    opSample opSample_mk fdctSample ⟨DType.complex128, [1, 2, 3, 4, 5, 6, 7, 8]⟩
  exact ⟨h.1, h.2 1 1 (by decide) (by decide)⟩

/-- C4: the batch-index enumeration is the canonical row-major Cartesian
product over the batch axes in ascending axis order (wildcards on transform
axes), its length is the product of the batch-axis sizes (1 when there are
none), and forward and adjoint application traverse this same sequence:
forward output slot `i` holds the flattened coefficients of the slice at
enumeration entry `i`, and the adjoint writes the slice reconstructed from
input slot `i` back at the coordinates of enumeration entry `i`. -/
theorem C4_batch_enumeration {V : Type} [Zero V] (nat : Native) (dims : List Nat)
    (axes : List Int) (nbs : Option Int) (nba : Nat) (ac : Bool) (dt : DType)
    (op : FDCTOp) (hmk : FDCT.mk nat dims axes nbs nba ac dt = .ok op)
    (hnodup : op.axes.Nodup) :
    op.iterator = specEnum dims op.axes ∧
    op.iterator.length = (specBatchShape op.axes dims 0).prod ∧
    op.iterator.length = op.ndim_iterable ∧
    (∀ (fdct : List V → FDCTStructLike V) (x : NDArr V),
      (∀ xs : List V, WellFormedStruct op.shapes (fdct xs)) →
      ∀ i, i < op.iterator.length →
      outCol (FDCT.matvec op fdct x).data op.output_len op.ndim_iterable i =
        FDCT.vect (fdct (gather (sliceMask op.inpdims (op.iterator.getD i [])) x.data))) ∧
    (∀ (ifdct : FDCTStructLike V → List V) (y : NDArr V),
      (∀ s : FDCTStructLike V, (ifdct s).length = op.input_shape.prod) →
      ∀ i, i < op.iterator.length →
      gather (sliceMask op.inpdims (op.iterator.getD i []))
        (FDCT.rmatvec op ifdct y).data = rSlice op ifdct y.data i) := by
  obtain ⟨hax, hdims, -, -, hinp, -, -, hout, -, -⟩ := mk_ok_spec hmk
  obtain ⟨hl1, hl2⟩ := op_iterator_length hmk
  refine ⟨op_iterator_eq_specEnum hmk, hl1, by omega, ?_, ?_⟩
  · intro fdct x hconf i hi
    exact outCol_matvec op fdct x hout hconf (by omega) hi
  · intro ifdct y hilen i hi
    have hrs : ∀ j, j < op.iterator.length → (rSlice op ifdct y.data j).length =
        countTrue (sliceMask op.inpdims (op.iterator.getD j [])) := by
      intro j hj
      obtain ⟨s, hs⟩ := @struct_ok_of_le V op
        (outCol y.data op.output_len op.ndim_iterable j)
        (by rw [outCol_length, ← hout])
      rw [rSlice_struct hs, hilen]
      have hmem : op.iterator.getD j [] ∈ op.iterator := by
        rw [List.getD_eq_getElem _ _ hj]
        exact List.getElem_mem _
      exact (op_mask_count hmk hnodup _ hmem).symm
    show gather (sliceMask op.inpdims (op.iterator.getD i []))
        (rmatvecLoop op ifdct y.data op.iterator 0
          (List.replicate op.inpdims.prod 0)) = rSlice op ifdct y.data i
    exact rmatvecLoop_gather_main op ifdct y.data (op_iterator_nodup hmk)
      (op_mask_disjoint hmk) hrs hi op.iterator 0 _ (List.drop_zero _).symm
      (Nat.zero_le i) (List.length_replicate _ _)

/-- Witness for C4 at the concrete sample operator. -/
theorem C4_batch_enumeration_witness :
    opSample.iterator = specEnum [2, 2, 2] opSample.axes ∧
    gather (sliceMask opSample.inpdims (opSample.iterator.getD 1 []))
      (FDCT.rmatvec opSample ifdctSample
        ⟨DType.complex128, [1, 2, 3, 4, 5, 6, 7, 8]⟩).data =
      rSlice opSample ifdctSample [1, 2, 3, 4, 5, 6, 7, 8] 1 := by
  have h := C4_batch_enumeration (V := Int) natSample [2, 2, 2] [1, 2] (some 1) 8 true
    .complex128 opSample opSample_mk (by decide)
  exact ⟨h.1, h.2.2.2.2 ifdctSample
    ⟨DType.complex128, [1, 2, 3, 4, 5, 6, 7, 8]⟩ ifdctSample_len 1 (by decide)⟩

/-- C5 (counterexample): duplicate in-range transform axes do NOT make
construction fail, contrary to the claim: axes `(1, 1)` on a rank-3 input
construct an operator successfully. -/
theorem C5_duplicate_axes_counterexample :
    (FDCT.mk natSample [2, 2, 2] [1, 1] (some 1) 8 true .complex128).isOk = true ∧
    ¬([1, 1] : List Int).Nodup := by
  exact ⟨by decide, by decide⟩

/-- C5 (amended): construction fails whenever the axis count is not 2 and
not 3, and fails with the axis error whenever some entry is out of range
for the input rank (outside `[-rank, rank)`); duplicate in-range entries
are not rejected. -/
theorem C5_invalid_axes_errors (nat : Native) (dims : List Nat) (axes : List Int)
    (nbs : Option Int) (nba : Nat) (ac : Bool) (dt : DType) :
    ((axes.length ≠ 2 ∧ axes.length ≠ 3) →
      ∃ e, FDCT.mk nat dims axes nbs nba ac dt = .error e) ∧
    (∀ d ∈ axes, (d < -(dims.length : Int) ∨ (dims.length : Int) ≤ d) →
      FDCT.mk nat dims axes nbs nba ac dt = .error .axisError) :=
  ⟨fun h => mk_error_of_arity h.1 h.2,
   fun _ hd hout => mk_error_of_out_of_range hd hout⟩

/-- Witness for the amended C5: arity 1 fails; an out-of-range axis fails
with the axis error. -/
theorem C5_invalid_axes_errors_witness :
    (∃ e, FDCT.mk natSample [2, 2, 2] [1] (some 1) 8 true .complex128 = .error e) ∧
    FDCT.mk natSample [2, 2, 2] [5, 1] (some 1) 8 true .complex128 =
      .error .axisError := by
  have h := C5_invalid_axes_errors natSample [2, 2, 2] [1] (some 1) 8 true .complex128
  have h2 := C5_invalid_axes_errors natSample [2, 2, 2] [5, 1] (some 1) 8 true .complex128
  exact ⟨h.1 (by decide), h2.2 5 (by decide) (by decide)⟩

/-- C6 (counterexample): `struct` does NOT reject vectors longer than
`perSliceOutputLen`: on the sample operator (`perSliceOutputLen = 4`) a
5-element vector is accepted, with the trailing element ignored. -/
theorem C6_too_long_counterexample :
    (FDCT.struct opSample ([1, 2, 3, 4, 5] : List Int)).isOk = true ∧
    opSample.output_len = 4 := by
  exact ⟨by decide, by decide⟩

/-- C6 (amended): `struct` succeeds exactly when the input holds at least
`perSliceOutputLen` elements; it raises the reshape `ValueError` exactly
when the input is too short.  Longer inputs are accepted (trailing elements
ignored), contrary to the original claim. -/
theorem C6_struct_length_check {V : Type} (nat : Native) (dims : List Nat)
    (axes : List Int) (nbs : Option Int) (nba : Nat) (ac : Bool) (dt : DType)
    (op : FDCTOp) (hmk : FDCT.mk nat dims axes nbs nba ac dt = .ok op) (v : List V) :
    ((∃ s, FDCT.struct op v = .ok s) ↔ op.output_len ≤ v.length) ∧
    (∀ e, FDCT.struct op v = .error e →
      e = .reshapeError ∧ v.length < op.output_len) := by
  obtain ⟨-, -, -, -, -, -, -, hout, -, -⟩ := mk_ok_spec hmk
  constructor
  · constructor
    · rintro ⟨s, hs⟩
      obtain ⟨hwf, rest, hsplit⟩ := struct_ok_spec hs
      have h1 := vect_length_of_wf hwf
      have h2 := congrArg List.length hsplit
      rw [List.length_append] at h2
      omega
    · intro hle
      exact struct_ok_of_le (by omega)
  · intro e he
    have h1 := struct_error_lt he
    exact ⟨struct_error_eq he, by omega⟩

/-- Witness for the amended C6: a 2-element vector is rejected by the
sample operator, whose per-slice output length is 4. -/
theorem C6_struct_length_check_witness :
    (FDCT.struct opSample ([1, 2] : List Int)).isOk = false := by
  cases hs : FDCT.struct opSample ([1, 2] : List Int) with
  | ok s =>
    have h := (C6_struct_length_check natSample [2, 2, 2] [1, 2] (some 1) 8 true
      .complex128 opSample opSample_mk ([1, 2] : List Int)).1.1 ⟨s, hs⟩
    exact absurd h (by decide)
  | error e => rfl

/-- C7: construction never succeeds with a non-complex element type, the
success of construction among complex element types does not depend on
which complex type is chosen, and with otherwise-valid arguments a
non-complex dtype fails with exactly the unsupported-type error. -/
theorem C7_dtype_check (nat : Native) (dims : List Nat) (axes : List Int)
    (nbs : Option Int) (nba : Nat) (ac : Bool) (dt : DType) :
    ((FDCT.mk nat dims axes nbs nba ac dt).isOk =
      (dt.isComplexFloating && (FDCT.mk nat dims axes nbs nba ac .complex128).isOk)) ∧
    (dt.isComplexFloating = false →
      (FDCT.mk nat dims axes nbs nba ac .complex128).isOk = true →
      FDCT.mk nat dims axes nbs nba ac dt = .error .dtypeError) :=
  ⟨mk_isOk_dtype nat dims axes nbs nba ac dt,
   fun hdt hok => mk_dtype_error nat dims axes nbs nba ac dt hok hdt⟩

/-- Witness for C7: with otherwise-valid arguments, a real dtype fails with
the unsupported-type error. -/
theorem C7_dtype_check_witness :
    FDCT.mk natSample [2, 2, 2] [1, 2] (some 1) 8 true .float64 =
      .error .dtypeError :=
  (C7_dtype_check natSample [2, 2, 2] [1, 2] (some 1) 8 true .float64).2
    (by decide) (by decide)

/-- C8: for every validly constructed operator, `perSliceOutputLen` is the
sum over all (scale, wedge) of the product of the wedge shape;
`rows = numBatchSlices × perSliceOutputLen` and `cols = product(inputShape)`.
Scenario: input shape `(4, 8, 8)` with transform axes `(1, 2)` gives
`numBatchSlices = 4` and forward output length `4 × perSliceOutputLen`. -/
theorem C8_derived_sizes :
    (∀ (nat : Native) (dims : List Nat) (axes : List Int) (nbs : Option Int)
      (nba : Nat) (ac : Bool) (dt : DType) (op : FDCTOp),
      FDCT.mk nat dims axes nbs nba ac dt = .ok op →
      op.output_len = outputLenOf op.shapes ∧
      op.rows = op.ndim_iterable * op.output_len ∧
      op.cols = dims.prod) ∧
    (∀ (nat : Native) (nbs : Option Int) (nba : Nat) (ac : Bool) (op : FDCTOp),
      FDCT.mk nat [4, 8, 8] [1, 2] nbs nba ac .complex128 = .ok op →
      op.ndim_iterable = 4 ∧
      ∀ (V : Type) [Zero V] (fdct : List V → FDCTStructLike V) (x : NDArr V),
        (FDCT.matvec op fdct x).data.length = 4 * op.output_len) := by
  constructor
  · intro nat dims axes nbs nba ac dt op hmk
    obtain ⟨-, hdims, -, -, -, -, hnit, hout, hdimsd, -⟩ := mk_ok_spec hmk
    refine ⟨hout, ?_, ?_⟩
    · rw [FDCTOp.rows, hdimsd, List.prod_append, hnit]
      simp
    · rw [FDCTOp.cols, hdims]
  · intro nat nbs nba ac op hmk
    obtain ⟨hax, -, -, -, -, -, hnit, -, -, -⟩ := mk_ok_spec hmk
    have haxes : op.axes = [1, 2] := by
      have heval : normAxes [1, 2] ([4, 8, 8] : List Nat).length = .ok [1, 2] := rfl
      rw [heval] at hax
      simp only [Except.ok.injEq] at hax
      exact hax.symm
    have hn4 : op.ndim_iterable = 4 := by
      rw [hnit, haxes]
      decide
    refine ⟨hn4, ?_⟩
    intro V _ fdct x
    rw [matvec_data_length, hn4, Nat.mul_comm]

/-- Witness for C8 at the concrete sample operators, including the
`(4, 8, 8)` batching scenario. -/
theorem C8_derived_sizes_witness :
    (opSample.output_len = outputLenOf opSample.shapes ∧
      opSample.rows = opSample.ndim_iterable * opSample.output_len ∧
      opSample.cols = ([2, 2, 2] : List Nat).prod) ∧
    (opSample488.ndim_iterable = 4 ∧
      (FDCT.matvec opSample488 fdctSample
        ⟨DType.complex128, List.replicate 256 (0 : Int)⟩).data.length =
        4 * opSample488.output_len) := by
  refine ⟨C8_derived_sizes.1 natSample [2, 2, 2] [1, 2] (some 1) 8 true .complex128
    opSample opSample_mk, ?_⟩
  have h := C8_derived_sizes.2 natSample (some 2) 8 true opSample488 opSample488_mk
  exact ⟨h.1, h.2 Int fdctSample ⟨DType.complex128, List.replicate 256 (0 : Int)⟩⟩

/-- C9: the public `inverse` method is definitionally the adjoint
application `_rmatvec`: bit-for-bit the same result. -/
theorem C9_inverse_eq_rmatvec {V : Type} [Zero V] (op : FDCTOp)
    (ifdct : FDCTStructLike V → List V) (y : NDArr V)
    (_hlen : y.data.length = op.rows) :
    FDCT.inverse op ifdct y = FDCT.rmatvec op ifdct y := rfl

/-- Witness for C9 at the concrete sample operator. -/
theorem C9_inverse_eq_rmatvec_witness :
    FDCT.inverse opSample ifdctSample
      ⟨DType.complex128, [1, 2, 3, 4, 5, 6, 7, 8]⟩ =
    FDCT.rmatvec opSample ifdctSample
      ⟨DType.complex128, [1, 2, 3, 4, 5, 6, 7, 8]⟩ :=
  C9_inverse_eq_rmatvec opSample ifdctSample
    ⟨DType.complex128, [1, 2, 3, 4, 5, 6, 7, 8]⟩ (by decide)

/-- C10: both forward and adjoint allocate their output with the operator's
configured complex dtype (`np.zeros(..., dtype=self.dtype)`), so every
application returns that dtype regardless of the input array's dtype. -/
theorem C10_dtype_invariant {V : Type} [Zero V] (nat : Native) (dims : List Nat)
    (axes : List Int) (nbs : Option Int) (nba : Nat) (ac : Bool) (dt : DType)
    (op : FDCTOp) (hmk : FDCT.mk nat dims axes nbs nba ac dt = .ok op) :
    op.dtype = dt ∧
    (∀ (fdct : List V → FDCTStructLike V) (x : NDArr V),
      (FDCT.matvec op fdct x).dtype = dt) ∧
    (∀ (ifdct : FDCTStructLike V → List V) (y : NDArr V),
      (FDCT.rmatvec op ifdct y).dtype = dt) := by
  obtain ⟨-, -, hdt, -, -, -, -, -, -, -⟩ := mk_ok_spec hmk
  exact ⟨hdt, fun fdct x => hdt, fun ifdct y => hdt⟩

/-- Witness for C10: a real-dtyped input still yields a complex-dtyped
output on the sample operator. -/
theorem C10_dtype_invariant_witness :
    (FDCT.matvec opSample fdctSample
      ⟨DType.float64, [1, 2, 3, 4, 5, 6, 7, 8]⟩).dtype = DType.complex128 :=
  (C10_dtype_invariant (V := Int) natSample [2, 2, 2] [1, 2] (some 1) 8 true
    .complex128 opSample opSample_mk).2.1 fdctSample
    ⟨DType.float64, [1, 2, 3, 4, 5, 6, 7, 8]⟩

end Curvelops
